import Mathlib

/-!
Verification of the EthStakingService monitoring daemon (`src/service/`).

The Python sources are shallowly embedded: pure functions become Lean
functions, Python exceptions become `Except PyErr`, Python `dict`s become
association lists (lookup = first match), Python `set`s of integers become
`Finset Nat`.  Machine arithmetic: Python integers are unbounded, so `Nat`/
`Int` model them exactly; the two places where CPython performs *float*
division (`activation_queue.py` and `get_next_slot`) are modelled explicitly
by correctly-rounded binary64 rounding of the exact rational quotient.
-/

/-- Python exception kinds raised by the embedded code. -/
inductive PyErr where
  | keyError
  | valueError
  | stopIteration
  | zeroDivisionError
  | validationError
  | typeError
  | assertionError
  | badParameter
  deriving DecidableEq

/-- Python `dict` lookup on an association list (keys are unique in every
dict the source builds; lookup returns the first match). -/
def pyLookup {β : Type} (l : List (Nat × β)) (k : Nat) : Option β :=
  (l.find? (fun p => p.1 == k)).map Prod.snd

/-- `d[k]` on a Python dict: `KeyError` when the key is absent. -/
def pyGetItem {β : Type} (l : List (Nat × β)) (k : Nat) : Except PyErr β :=
  match pyLookup l k with
  | some v => .ok v
  | none => .error .keyError

/-- `service/utils.py::hex_to_binary`, nibble table: value of one hex digit.
Python `int(s, 16)` accepts both cases. -/
def hexCharVal (c : Char) : Option Nat :=
  if '0' ≤ c ∧ c ≤ '9' then some (c.toNat - '0'.toNat)
  else if 'a' ≤ c ∧ c ≤ 'f' then some (c.toNat - 'a'.toNat + 10)
  else if 'A' ≤ c ∧ c ≤ 'F' then some (c.toNat - 'A'.toNat + 10)
  else none

/-- The four bits of one hex digit, most significant first (this is what
`bin(int(h,16))[2:].zfill(4*len(h))` produces, digit by digit). -/
def nibbleBits (v : Nat) : List Bool :=
  [v.testBit 3, v.testBit 2, v.testBit 1, v.testBit 0]

/-- `service/utils.py::hex_to_binary`: strip an optional `0x` prefix, then
convert hex digits to bits, MSB-first, total length `4 × digits`.
`int("", 16)` (empty digit string) raises `ValueError`, as does a non-hex
character. -/
def hex_to_binary (hex : List Char) : Except PyErr (List Bool) :=
  let hexWo0x := if hex.take 2 = ['0', 'x'] then hex.drop 2 else hex
  match hexWo0x.mapM hexCharVal with
  | none => .error .valueError
  | some [] => .error .valueError
  | some digits => .ok (digits.flatMap nibbleBits)

/-- `more_itertools.chunked(bits, 8)`: split into consecutive groups of 8,
last group possibly short. -/
def chunked8 : List Bool → List (List Bool)
  | [] => []
  | a :: t => ((a :: t).take 8) :: chunked8 ((a :: t).drop 8)
  termination_by l => l.length
  decreasing_by simp [List.length_drop]; omega

/-- `service/utils.py::switch_endianness`: reverse every 8-bit group. -/
def switch_endianness (bits : List Bool) : List Bool :=
  ((chunked8 bits).map List.reverse).flatten

/-- `service/utils.py::delete_zero_bits`: drop the last `True` and
everything after it; `StopIteration` when no bit is set. -/
def delete_zero_bits (bits : List Bool) : Except PyErr (List Bool) :=
  match bits.reverse.findIdx? (fun b => b) with
  | none => .error .stopIteration
  | some index => .ok (bits.take (bits.length - index - 1))

/-- Python `min` over the lengths of the vectors (the length `zip(*l)`
truncates to); `0` for an empty list of vectors. -/
def minLen : List (List Bool) → Nat
  | [] => 0
  | v :: vs => vs.foldl (fun m w => Nat.min m w.length) v.length

/-- `[any(bools) for bools in zip(*l)]`: position-wise OR, `n` positions. -/
def zipAnyAux : Nat → List (List Bool) → List Bool
  | 0, _ => []
  | n + 1, ls => (ls.any fun v => v.headD false) :: zipAnyAux n (ls.map List.tail)

/-- `service/utils.py::aggregate_bits`: `_, *trash = {len(b) for b in l}`
succeeds with empty `trash` exactly when the set of lengths is a singleton
(`ValueError` when `l` is empty or lengths differ); then position-wise OR
over `zip(*l)`. -/
def aggregate_bits (list_of_bools : List (List Bool)) : Except PyErr (List Bool) :=
  if ((list_of_bools.map List.length).dedup).length = 1 then
    .ok (zipAnyAux (minLen list_of_bools) list_of_bools)
  else .error .valueError

/-- `service/utils.py::apply_mask`: set of items whose zipped bit is set. -/
def apply_mask (items : List Nat) (mask : List Bool) : Finset Nat :=
  ((items.zip mask).filterMap fun p => if p.2 then some p.1 else none).toFinset

/-- Normal form of `aggregate_bits` on equal-length vectors: position `i`
holds the OR over all vectors of bit `i`. -/
def orVec (n : Nat) (l : List (List Bool)) : List Bool :=
  (List.range n).map fun i => l.any fun v => v.getD i false

-- ### helper lemmas for the bit utilities

theorem findIdx_id_append_false {l₂ : List Bool} (h : ∀ b ∈ l₂, b = false)
    (l : List Bool) :
    (l₂ ++ true :: l).findIdx? (fun b => b) = some l₂.length := by
  induction l₂ with
  | nil => simp [List.findIdx?]
  | cons a t ih =>
    have ha : a = false := h a (by simp)
    have ht : ∀ b ∈ t, b = false := fun b hb => h b (by simp [hb])
    subst ha
    rw [List.cons_append, List.findIdx?_cons]
    simp [ih ht]

theorem findIdx_id_all_false {l : List Bool} (h : ∀ b ∈ l, b = false) :
    l.findIdx? (fun b => b) = none := by
  induction l with
  | nil => simp [List.findIdx?]
  | cons a t ih =>
    have ha : a = false := h a (by simp)
    have ht : ∀ b ∈ t, b = false := fun b hb => h b (by simp [hb])
    subst ha
    rw [List.findIdx?_cons]
    simp [ih ht]

/-- C6: for a vector with at least one set bit, written `l₁ ++ true :: l₂`
with only zero bits in `l₂` (so that `true` is the last set bit),
`delete_zero_bits` returns exactly the strict prefix `l₁` before that last
set bit; for an all-zero or empty vector it signals `StopIteration`. -/
theorem delete_zero_bits_spec :
    (∀ l₁ l₂ : List Bool, (∀ b ∈ l₂, b = false) →
      delete_zero_bits (l₁ ++ true :: l₂) = .ok l₁) ∧
    (∀ l : List Bool, (∀ b ∈ l, b = false) →
      delete_zero_bits l = .error .stopIteration) := by
  constructor
  · intro l₁ l₂ h
    unfold delete_zero_bits
    have hrev : (l₁ ++ true :: l₂).reverse = l₂.reverse ++ true :: l₁.reverse := by
      simp
    have hfalse : ∀ b ∈ l₂.reverse, b = false := by
      intro b hb; exact h b (List.mem_reverse.mp hb)
    rw [hrev, findIdx_id_append_false hfalse]
    exact congrArg Except.ok
      (@List.take_left' Bool l₁ (true :: l₂) _ (by simp; omega))
  · intro l h
    unfold delete_zero_bits
    have hfalse : ∀ b ∈ l.reverse, b = false := by
      intro b hb; exact h b (List.mem_reverse.mp hb)
    rw [findIdx_id_all_false hfalse]

/-- C6 witness: the docstring example, and an all-zero vector. -/
theorem delete_zero_bits_spec_witness :
    delete_zero_bits [false, true, false, true, true, false] =
      .ok [false, true, false, true] ∧
    delete_zero_bits [false, false] = .error .stopIteration := by
  refine ⟨?_, delete_zero_bits_spec.2 [false, false] (by decide)⟩
  have h := delete_zero_bits_spec.1 [false, true, false, true] [false] (by decide)
  simpa using h

theorem headD_eq_getD_zero (v : List Bool) : v.headD false = v.getD 0 false := by
  cases v <;> rfl

theorem tail_getD (v : List Bool) (i : Nat) :
    v.tail.getD i false = v.getD (i + 1) false := by
  cases v <;> rfl

theorem perm_any {α : Type} {l l' : List α} (h : l.Perm l') (p : α → Bool) :
    l.any p = l'.any p := by
  rw [Bool.eq_iff_iff]
  simp only [List.any_eq_true]
  exact ⟨fun ⟨x, hx, hp⟩ => ⟨x, h.mem_iff.mp hx, hp⟩,
    fun ⟨x, hx, hp⟩ => ⟨x, h.mem_iff.mpr hx, hp⟩⟩

theorem orVec_succ (n : Nat) (l : List (List Bool)) :
    orVec (n + 1) l = (l.any fun v => v.getD 0 false) :: orVec n (l.map List.tail) := by
  unfold orVec
  rw [List.range_succ_eq_map, List.map_cons, List.map_map]
  congr 1
  apply List.map_congr_left
  intro i _
  rw [List.any_map]
  exact congrArg l.any (funext fun v => (tail_getD v i).symm)

theorem zipAnyAux_eq_orVec (n : Nat) :
    ∀ l : List (List Bool), (∀ v ∈ l, n ≤ v.length) → zipAnyAux n l = orVec n l := by
  induction n with
  | zero => intro l _; simp [zipAnyAux, orVec]
  | succ n ih =>
    intro l h
    have hstep : zipAnyAux (n + 1) l =
        (l.any fun v => v.headD false) :: zipAnyAux n (l.map List.tail) := rfl
    have hbound : ∀ w ∈ l.map List.tail, n ≤ w.length := by
      intro w hw
      rcases List.mem_map.mp hw with ⟨v, hv, rfl⟩
      have := h v hv
      simp only [List.length_tail]
      omega
    rw [hstep, ih (l.map List.tail) hbound, orVec_succ]
    congr 1
    exact congrArg l.any (funext fun v => headD_eq_getD_zero v)

theorem foldl_min_const {n : Nat} :
    ∀ vs : List (List Bool), (∀ w ∈ vs, w.length = n) →
      vs.foldl (fun m w => Nat.min m w.length) n = n := by
  intro vs
  induction vs with
  | nil => intro _; rfl
  | cons w t ih =>
    intro h
    have hw : w.length = n := h w (by simp)
    have ht : ∀ x ∈ t, x.length = n := fun x hx => h x (by simp [hx])
    simp only [List.foldl_cons, hw, Nat.min_self]
    exact ih ht

theorem minLen_eq {l : List (List Bool)} {n : Nat} (hne : l ≠ [])
    (h : ∀ v ∈ l, v.length = n) : minLen l = n := by
  cases l with
  | nil => exact absurd rfl hne
  | cons v vs =>
    have hv : v.length = n := h v (by simp)
    have hvs : ∀ w ∈ vs, w.length = n := fun w hw => h w (by simp [hw])
    show vs.foldl (fun m w => Nat.min m w.length) v.length = n
    rw [hv]
    exact foldl_min_const vs hvs

theorem dedup_len_one_of_all_eq {xs : List Nat} {n : Nat} (hne : xs ≠ [])
    (h : ∀ x ∈ xs, x = n) : xs.dedup.length = 1 := by
  have hn : n ∈ xs.dedup := by
    rw [List.mem_dedup]
    cases xs with
    | nil => exact absurd rfl hne
    | cons a t => have := h a (by simp); rw [← this]; simp
  have hall : ∀ x ∈ xs.dedup, x = n := fun x hx => h x (List.mem_dedup.mp hx)
  have hnodup := xs.nodup_dedup
  cases hd : xs.dedup with
  | nil => rw [hd] at hn; simp at hn
  | cons a t =>
    cases t with
    | nil => rfl
    | cons b t2 =>
      exfalso
      rw [hd] at hall hnodup
      have ha : a = n := hall a (by simp)
      have hb : b = n := hall b (by simp)
      rw [List.nodup_cons] at hnodup
      exact hnodup.1 (by rw [ha, hb]; simp)

theorem all_eq_of_dedup_len_one {xs : List Nat} (h : xs.dedup.length = 1) :
    ∀ x ∈ xs, ∀ y ∈ xs, x = y := by
  rcases List.length_eq_one.mp h with ⟨a, ha⟩
  intro x hx y hy
  have hx' : x ∈ xs.dedup := List.mem_dedup.mpr hx
  have hy' : y ∈ xs.dedup := List.mem_dedup.mpr hy
  rw [ha] at hx' hy'
  simp at hx' hy'
  rw [hx', hy']

/-- On a non-empty family of equal-length vectors, `aggregate_bits`
succeeds and returns the position-wise OR. -/
theorem aggregate_bits_ok {l : List (List Bool)} {n : Nat} (hne : l ≠ [])
    (h : ∀ v ∈ l, v.length = n) : aggregate_bits l = .ok (orVec n l) := by
  unfold aggregate_bits
  have hmapne : l.map List.length ≠ [] := by
    cases l with
    | nil => exact absurd rfl hne
    | cons a t => simp
  have hmapeq : ∀ x ∈ l.map List.length, x = n := by
    intro x hx
    rcases List.mem_map.mp hx with ⟨v, hv, rfl⟩
    exact h v hv
  rw [if_pos (dedup_len_one_of_all_eq hmapne hmapeq), minLen_eq hne h,
    zipAnyAux_eq_orVec n l (fun v hv => (h v hv) ▸ Nat.le_refl n)]

/-- Conversely, a successful `aggregate_bits` run forces a non-empty family,
a common length, and the position-wise-OR result. -/
theorem aggregate_bits_ok_inv {l : List (List Bool)} {a : List Bool}
    (h : aggregate_bits l = .ok a) :
    ∃ n, l ≠ [] ∧ (∀ v ∈ l, v.length = n) ∧ a = orVec n l := by
  have hg : ((l.map List.length).dedup).length = 1 := by
    by_contra hg
    unfold aggregate_bits at h
    rw [if_neg hg] at h
    cases h
  have hne : l ≠ [] := by
    rintro rfl
    rw [List.map_nil, List.dedup_nil] at hg
    simp at hg
  cases l with
  | nil => exact absurd rfl hne
  | cons v vs =>
    have hlen : ∀ w ∈ v :: vs, w.length = v.length := fun w hw =>
      all_eq_of_dedup_len_one hg w.length (List.mem_map_of_mem _ hw) v.length
        (List.mem_map_of_mem _ (by simp))
    refine ⟨v.length, by simp, hlen, ?_⟩
    have hok := @aggregate_bits_ok (v :: vs) v.length (by simp) hlen
    rw [h] at hok
    exact Except.ok.inj hok

theorem orVec_length (n : Nat) (l : List (List Bool)) : (orVec n l).length = n := by
  simp [orVec]

theorem orVec_getElem (n : Nat) (l : List (List Bool)) (i : Nat) (hi : i < n) :
    (orVec n l).getD i false = l.any fun v => v.getD i false := by
  unfold orVec
  rw [List.getD_eq_getElem _ _ (by simpa using hi)]
  simp

theorem orVec_self (v : List Bool) : orVec v.length [v] = v := by
  apply List.ext_getElem (by simp [orVec_length])
  intro i h1 h2
  unfold orVec
  simp [List.getD_eq_getElem v false h2, List.getElem?_eq_getElem h2]

theorem orVec_getElem_eq (n : Nat) (l : List (List Bool)) (i : Nat)
    (h : i < (orVec n l).length) :
    (orVec n l)[i] = l.any fun v => v.getD i false := by
  unfold orVec at h ⊢
  simp

theorem replicate_false_getD (n i : Nat) :
    (List.replicate n false).getD i false = false := by
  rcases Nat.lt_or_ge i n with h | h
  · rw [List.getD_eq_getElem _ _ (by simpa using h)]
    simp
  · rw [List.getD_eq_default _ _ (by simpa using h)]

theorem orVec_pair (v : List Bool) :
    orVec v.length [v, List.replicate v.length false] = v := by
  apply List.ext_getElem (by simp [orVec_length])
  intro i h1 h2
  rw [orVec_getElem_eq _ _ _ h1]
  simp [List.any_cons, replicate_false_getD, List.getD_eq_getElem v false h2,
    List.getElem?_eq_getElem h2]

theorem orVec_perm (n : Nat) {l l' : List (List Bool)} (h : l.Perm l') :
    orVec n l = orVec n l' := by
  unfold orVec
  exact List.map_congr_left fun i _ => perm_any h _

theorem orVec_append (n : Nat) (l₁ l₂ : List (List Bool)) :
    orVec n (l₁ ++ l₂) = orVec n [orVec n l₁, orVec n l₂] := by
  apply List.ext_getElem (by simp [orVec_length])
  intro i h1 h2
  rw [orVec_getElem_eq _ _ _ h1, orVec_getElem_eq _ _ _ h2]
  have hi : i < n := by rwa [orVec_length] at h1
  rw [List.any_append]
  simp only [List.any_cons, List.any_nil, Bool.or_false]
  rw [orVec_getElem n l₁ i hi, orVec_getElem n l₂ i hi]

theorem aggregate_bits_dichotomy (l : List (List Bool)) :
    aggregate_bits l = .error .valueError ∨ ∃ a, aggregate_bits l = .ok a := by
  unfold aggregate_bits
  split
  · exact Or.inr ⟨_, rfl⟩
  · exact Or.inl rfl

/-- C7: `aggregate_bits` on a non-empty family of equal-length vectors is
the position-wise OR (`orVec`); it errors when two vectors differ in
length; `aggregate_bits [v] = v`; ORing with an all-false vector is the
identity; the result is invariant under permutation of the input family;
and aggregating a concatenation equals aggregating the two partial
aggregates (regrouping / associativity under length equality). -/
theorem aggregate_bits_spec :
    (∀ (l : List (List Bool)) (n : Nat), l ≠ [] → (∀ v ∈ l, v.length = n) →
      aggregate_bits l = .ok (orVec n l)) ∧
    (∀ (l : List (List Bool)) (v w : List Bool), v ∈ l → w ∈ l →
      v.length ≠ w.length → aggregate_bits l = .error .valueError) ∧
    (∀ v : List Bool, aggregate_bits [v] = .ok v) ∧
    (∀ v : List Bool, aggregate_bits [v, List.replicate v.length false] = .ok v) ∧
    (∀ l l' : List (List Bool), l.Perm l' → aggregate_bits l = aggregate_bits l') ∧
    (∀ (l₁ l₂ : List (List Bool)) (a b : List Bool),
      aggregate_bits l₁ = .ok a → aggregate_bits l₂ = .ok b →
      a.length = b.length →
      aggregate_bits (l₁ ++ l₂) = aggregate_bits [a, b]) := by
  refine ⟨fun l n hne h => aggregate_bits_ok hne h, ?_, ?_, ?_, ?_, ?_⟩
  · intro l v w hv hw hne
    unfold aggregate_bits
    rw [if_neg]
    intro hg
    exact hne (all_eq_of_dedup_len_one hg v.length (List.mem_map_of_mem _ hv)
      w.length (List.mem_map_of_mem _ hw))
  · intro v
    rw [aggregate_bits_ok (by simp)
      (fun w hw => by rw [List.mem_singleton] at hw; rw [hw])]
    exact congrArg Except.ok (orVec_self v)
  · intro v
    rw [@aggregate_bits_ok [v, List.replicate v.length false] v.length (by simp) ?_]
    · exact congrArg Except.ok (orVec_pair v)
    · intro w hw
      rcases List.mem_pair.mp hw with rfl | rfl
      · rfl
      · simp
  · intro l l' hp
    rcases aggregate_bits_dichotomy l with herr | ⟨a, hok⟩
    · rcases aggregate_bits_dichotomy l' with herr' | ⟨b, hok'⟩
      · rw [herr, herr']
      · exfalso
        rcases aggregate_bits_ok_inv hok' with ⟨n, hne', hlen', _⟩
        have hne : l ≠ [] := by
          intro hnil
          rw [hnil] at hp
          exact hne' (List.Perm.eq_nil hp.symm)
        have hlen : ∀ v ∈ l, v.length = n := fun v hv => hlen' v (hp.mem_iff.mp hv)
        rw [aggregate_bits_ok hne hlen] at herr
        cases herr
    · rcases aggregate_bits_ok_inv hok with ⟨n, hne, hlen, rfl⟩
      have hne' : l' ≠ [] := by
        intro hnil
        rw [hnil] at hp
        exact hne (List.Perm.eq_nil hp)
      have hlen' : ∀ v ∈ l', v.length = n := fun v hv => hlen v (hp.mem_iff.mpr hv)
      rw [hok, aggregate_bits_ok hne' hlen']
      exact congrArg Except.ok (orVec_perm n hp)
  · intro l₁ l₂ a b h1 h2 hab
    rcases aggregate_bits_ok_inv h1 with ⟨n, hne1, hlen1, rfl⟩
    rcases aggregate_bits_ok_inv h2 with ⟨m, hne2, hlen2, rfl⟩
    have hnm : n = m := by rwa [orVec_length, orVec_length] at hab
    subst hnm
    have happ : ∀ v ∈ l₁ ++ l₂, v.length = n := by
      intro v hv
      rcases List.mem_append.mp hv with h | h
      · exact hlen1 v h
      · exact hlen2 v h
    have hne : l₁ ++ l₂ ≠ [] := by
      intro hnil
      exact hne1 (List.append_eq_nil.mp hnil).1
    rw [aggregate_bits_ok hne happ,
      @aggregate_bits_ok [orVec n l₁, orVec n l₂] n (by simp) ?_]
    · exact congrArg Except.ok (orVec_append n l₁ l₂)
    · intro v hv
      rcases List.mem_pair.mp hv with rfl | rfl <;> exact orVec_length n _

/-- C7 witness: each conjunct of `aggregate_bits_spec` instantiated at a
concrete input, evaluated. -/
theorem aggregate_bits_spec_witness :
    aggregate_bits [[false, false, true], [false, true, false]] =
      .ok [false, true, true] ∧
    aggregate_bits [[false, false], [false, true, false]] =
      .error .valueError ∧
    aggregate_bits [[true, false]] = .ok [true, false] ∧
    aggregate_bits [[true, false], [false, false]] = .ok [true, false] ∧
    aggregate_bits [[true], [false]] = aggregate_bits [[false], [true]] ∧
    aggregate_bits ([[true, false]] ++ [[false, true]]) =
      aggregate_bits [[true, false], [false, true]] := by
  refine ⟨?_, ?_, ?_, ?_, ?_, ?_⟩
  · rw [aggregate_bits_spec.1 [[false, false, true], [false, true, false]] 3
      (by simp) (by decide)]
    rfl
  · exact aggregate_bits_spec.2.1 [[false, false], [false, true, false]]
      [false, false] [false, true, false] (by simp) (by simp) (by decide)
  · exact aggregate_bits_spec.2.2.1 [true, false]
  · have h := aggregate_bits_spec.2.2.2.1 [true, false]
    simpa using h
  · exact aggregate_bits_spec.2.2.2.2.1 [[true], [false]] [[false], [true]]
      (List.Perm.swap [false] [true] [])
  · exact aggregate_bits_spec.2.2.2.2.2 [[true, false]] [[false, true]]
      [true, false] [false, true] rfl rfl rfl

/-- `service/utils.py::LimitedDict.__setitem__`, tracked at the level of the
key set (values never influence eviction): add the key, then pop the keys of
`sorted(dict)[:-max_size]`.  Note the Python slice: for `max_size = 0` the
end index `-0` means `0`, so the slice is empty and nothing is evicted. -/
def limitedDictSetItem (max_size : Nat) (d : Finset Nat) (key : Nat) : Finset Nat :=
  let d' := insert key d
  let sorted := d'.sort (· ≤ ·)
  let first_keys := if max_size = 0 then [] else sorted.take (sorted.length - max_size)
  first_keys.foldl (fun acc kk => acc.erase kk) d'

/-- Spec-side reading of the retention rule: the `k` numerically largest
elements of `s` (all of `s` when `s.card ≤ k`), i.e. the ascending sort with
the `s.card - k` smallest entries dropped. -/
def topK (k : Nat) (s : Finset Nat) : Finset Nat :=
  ((s.sort (· ≤ ·)).drop (s.card - k)).toFinset

/-- Number of elements of `s` strictly greater than `x`. -/
def countGt (s : Finset Nat) (x : Nat) : Nat :=
  (s.filter fun y => x < y).card

theorem foldl_erase_eq_sdiff (xs : List Nat) (s : Finset Nat) :
    xs.foldl (fun acc kk => acc.erase kk) s = s \ xs.toFinset := by
  induction xs generalizing s with
  | nil => simp
  | cons a t ih =>
    rw [List.foldl_cons, ih]
    ext x
    simp only [Finset.mem_sdiff, Finset.mem_erase, List.toFinset_cons,
      Finset.mem_insert, List.mem_toFinset]
    tauto

theorem limitedDictSetItem_eq_topK {k : Nat} (hk : 1 ≤ k) (d : Finset Nat)
    (key : Nat) : limitedDictSetItem k d key = topK k (insert key d) := by
  have hk0 : k ≠ 0 := by omega
  show (if k = 0 then ([] : List Nat)
      else ((insert key d).sort (· ≤ ·)).take
        (((insert key d).sort (· ≤ ·)).length - k)).foldl
      (fun acc kk => acc.erase kk) (insert key d) = topK k (insert key d)
  rw [if_neg hk0, foldl_erase_eq_sdiff]
  have hnodup : ((insert key d).sort (· ≤ ·)).Nodup := Finset.sort_nodup _ _
  have htf : ((insert key d).sort (· ≤ ·)).toFinset = insert key d :=
    Finset.sort_toFinset _ _
  have hcard : (insert key d).card = ((insert key d).sort (· ≤ ·)).length :=
    (Finset.length_sort _).symm
  set l := (insert key d).sort (· ≤ ·) with hl
  set n := l.length - k with hn
  have hdisj : List.Disjoint (l.take n) (l.drop n) :=
    List.disjoint_take_drop hnodup (Nat.le_refl n)
  have htopk : topK k (insert key d) = (l.drop n).toFinset := by
    unfold topK
    rw [← hl, hcard, ← hn]
  rw [htopk]
  have hxl : ∀ x : Nat, x ∈ insert key d ↔ x ∈ l :=
    fun x => (Finset.mem_sort _).symm
  ext x
  simp only [Finset.mem_sdiff, List.mem_toFinset]
  constructor
  · rintro ⟨hx, hnt⟩
    have hx' := (hxl x).mp hx
    rw [← List.take_append_drop n l] at hx'
    rcases List.mem_append.mp hx' with h | h
    · exact absurd h hnt
    · exact h
  · intro hx
    refine ⟨(hxl x).mpr ?_, fun ht => hdisj ht hx⟩
    rw [← List.take_append_drop n l]
    exact List.mem_append.mpr (Or.inr hx)

theorem mem_drop_iff_of_sorted :
    ∀ {l : List Nat}, List.Sorted (· < ·) l → ∀ (n : Nat) (x : Nat),
      (x ∈ l.drop n ↔
        x ∈ l ∧ (l.filter fun y => x < y).length < l.length - n) := by
  intro l
  induction l with
  | nil => intro _ n x; simp
  | cons a t ih =>
    intro hs n x
    have hst : List.Sorted (· < ·) t := hs.of_cons
    have hlt : ∀ y ∈ t, a < y := List.rel_of_sorted_cons hs
    cases n with
    | zero =>
      simp only [List.drop_zero, Nat.sub_zero]
      constructor
      · intro hx
        refine ⟨hx, ?_⟩
        rw [List.length_filter_lt_length_iff_exists]
        exact ⟨x, hx, by simp⟩
      · exact fun h => h.1
    | succ n =>
      rw [List.drop_succ_cons, ih hst n x]
      by_cases hxa : x = a
      · subst hxa
        have hnotin : x ∈ t → False := fun h => absurd (hlt x h) (lt_irrefl x)
        have hfa : ((x :: t).filter fun y => x < y) = t.filter fun y => x < y := by
          simp [List.filter_cons, lt_irrefl]
        have hft : (t.filter fun y => x < y) = t :=
          List.filter_eq_self.mpr (fun y hy => by simpa using hlt y hy)
        constructor
        · rintro ⟨h1, _⟩
          exact absurd h1 hnotin
        · rintro ⟨_, h2⟩
          rw [hfa, hft] at h2
          simp only [List.length_cons] at h2
          omega
      · by_cases hxlt : x < a
        · have hxt : x ∈ t → False := fun h => absurd (hlt x h) (by omega)
          constructor
          · rintro ⟨h1, _⟩
            exact absurd h1 hxt
          · rintro ⟨h1, _⟩
            rcases List.mem_cons.mp h1 with rfl | h
            · exact absurd rfl hxa
            · exact absurd h hxt
        · have hfa : ((a :: t).filter fun y => x < y) = t.filter fun y => x < y := by
            simp [List.filter_cons, hxlt]
          constructor
          · rintro ⟨h1, h2⟩
            refine ⟨List.mem_cons_of_mem a h1, ?_⟩
            rw [hfa]
            simp only [List.length_cons]
            omega
          · rintro ⟨h1, h2⟩
            have h1' : x ∈ t := by
              rcases List.mem_cons.mp h1 with rfl | h
              · exact absurd rfl hxa
              · exact h
            refine ⟨h1', ?_⟩
            rw [hfa] at h2
            simp only [List.length_cons] at h2
            omega

theorem topK_mem {k : Nat} {s : Finset Nat} {x : Nat} :
    x ∈ topK k s ↔ x ∈ s ∧ countGt s x < k := by
  unfold topK countGt
  have hsorted : List.Sorted (· < ·) (s.sort (· ≤ ·)) := Finset.sort_sorted_lt s
  have hnodup : (s.sort (· ≤ ·)).Nodup := Finset.sort_nodup _ _
  have hcard : s.card = (s.sort (· ≤ ·)).length := (Finset.length_sort _).symm
  set l := s.sort (· ≤ ·) with hl
  rw [List.mem_toFinset, mem_drop_iff_of_sorted hsorted (s.card - k) x]
  have hfc : (s.filter fun y => x < y).card = (l.filter fun y => x < y).length := by
    have h1 : (l.filter fun y => x < y).toFinset =
        l.toFinset.filter fun y => x < y := by
      rw [List.toFinset_filter]
      exact Finset.filter_congr (fun y _ => by simp)
    have h2 : l.toFinset = s := Finset.sort_toFinset _ _
    rw [← List.toFinset_card_of_nodup (hnodup.filter _), h1, h2]
  have hmem : x ∈ l ↔ x ∈ s := Finset.mem_sort _
  have hcg : x ∈ l → (l.filter fun y => x < y).length < l.length := by
    intro hx
    rw [List.length_filter_lt_length_iff_exists]
    exact ⟨x, hx, by simp⟩
  constructor
  · rintro ⟨hxl, hlen⟩
    have := hcg hxl
    refine ⟨hmem.mp hxl, ?_⟩
    rw [hfc]
    omega
  · rintro ⟨hxs, hlen⟩
    have hxl : x ∈ l := hmem.mpr hxs
    have := hcg hxl
    rw [hfc] at hlen
    exact ⟨hxl, by omega⟩

theorem topK_card_le (k : Nat) (s : Finset Nat) : (topK k s).card ≤ k := by
  unfold topK
  have h1 := List.toFinset_card_le ((s.sort (· ≤ ·)).drop (s.card - k))
  have h2 : ((s.sort (· ≤ ·)).drop (s.card - k)).length =
      (s.sort (· ≤ ·)).length - (s.card - k) := List.length_drop _ _
  have h3 : (s.sort (· ≤ ·)).length = s.card := Finset.length_sort _
  omega

theorem topK_subset (k : Nat) (s : Finset Nat) : topK k s ⊆ s :=
  fun _ hx => (topK_mem.mp hx).1

theorem topK_card_of_missing {k : Nat} {s : Finset Nat} {y : Nat}
    (hy : y ∈ s) (hyn : y ∉ topK k s) : (topK k s).card = k := by
  have hnodup : (s.sort (· ≤ ·)).Nodup := Finset.sort_nodup _ _
  have hcard : s.card = (s.sort (· ≤ ·)).length := (Finset.length_sort _).symm
  set l := s.sort (· ≤ ·) with hl
  set n := s.card - k with hn
  have hdropnodup : (l.drop n).Nodup := hnodup.sublist (List.drop_sublist n l)
  have h1 : (topK k s).card = (l.drop n).length := by
    unfold topK
    rw [← hl, ← hn]
    exact List.toFinset_card_of_nodup hdropnodup
  have h2 : (l.drop n).length = l.length - n := List.length_drop _ _
  have hyl : y ∈ l := (Finset.mem_sort _).mpr hy
  have hytake : y ∈ l.take n := by
    have hyl' := hyl
    rw [← List.take_append_drop n l] at hyl'
    rcases List.mem_append.mp hyl' with h | h
    · exact h
    · exfalso
      apply hyn
      unfold topK
      rw [← hl, ← hn]
      exact List.mem_toFinset.mpr h
  have hn1 : 1 ≤ n := by
    by_contra h0
    have : n = 0 := by omega
    rw [this] at hytake
    simp at hytake
  omega

theorem topK_gt_of_missing {k : Nat} {s : Finset Nat} {y : Nat}
    (hy : y ∈ s) (hyn : y ∉ topK k s) : ∀ t ∈ topK k s, y < t := by
  intro t ht
  by_contra hle
  push_neg at hle
  have h1 : ¬ countGt s y < k := fun hc => hyn (topK_mem.mpr ⟨hy, hc⟩)
  have h2 : countGt s t < k := (topK_mem.mp ht).2
  have hmono : countGt s y ≤ countGt s t := by
    apply Finset.card_le_card
    intro z hz
    have hz' := Finset.mem_filter.mp hz
    exact Finset.mem_filter.mpr ⟨hz'.1, lt_of_le_of_lt hle hz'.2⟩
  omega

theorem topK_insert_topK {k : Nat} (s : Finset Nat) (a : Nat) :
    topK k (insert a (topK k s)) = topK k (insert a s) := by
  ext x
  rw [topK_mem, topK_mem]
  have hTsub : topK k s ⊆ s := topK_subset k s
  constructor
  · rintro ⟨hx, hcnt⟩
    have hx' : x ∈ insert a s := by
      rcases Finset.mem_insert.mp hx with rfl | h
      · exact Finset.mem_insert_self _ _
      · exact Finset.mem_insert_of_mem (hTsub h)
    refine ⟨hx', ?_⟩
    by_contra hge
    push_neg at hge
    unfold countGt at hge
    have hne : ¬ ((insert a s).filter (fun z => x < z) ⊆
        (insert a (topK k s)).filter (fun z => x < z)) := by
      intro hsub2
      have hc := Finset.card_le_card hsub2
      unfold countGt at hcnt
      omega
    rcases Finset.not_subset.mp hne with ⟨y, hy1, hy2⟩
    have hy1' := Finset.mem_filter.mp hy1
    have hyT : y ∉ insert a (topK k s) := fun h =>
      hy2 (Finset.mem_filter.mpr ⟨h, hy1'.2⟩)
    have hys : y ∈ s := by
      rcases Finset.mem_insert.mp hy1'.1 with rfl | h
      · exact absurd (Finset.mem_insert_self _ _) hyT
      · exact h
    have hyT' : y ∉ topK k s := fun h => hyT (Finset.mem_insert_of_mem h)
    have hcardT : (topK k s).card = k := topK_card_of_missing hys hyT'
    have hgt := topK_gt_of_missing hys hyT'
    have hTfil : topK k s ⊆ (insert a (topK k s)).filter (fun z => x < z) := by
      intro t ht
      exact Finset.mem_filter.mpr ⟨Finset.mem_insert_of_mem ht,
        lt_trans hy1'.2 (hgt t ht)⟩
    have hk2 := Finset.card_le_card hTfil
    rw [hcardT] at hk2
    unfold countGt at hcnt
    omega
  · rintro ⟨hx, hcnt⟩
    have hxT : x ∈ insert a (topK k s) := by
      rcases Finset.mem_insert.mp hx with rfl | hxs
      · exact Finset.mem_insert_self _ _
      · by_contra hnot
        have hxT' : x ∉ topK k s := fun h => hnot (Finset.mem_insert_of_mem h)
        have hcardT : (topK k s).card = k := topK_card_of_missing hxs hxT'
        have hgt := topK_gt_of_missing hxs hxT'
        have hTfil : topK k s ⊆ (insert a s).filter (fun z => x < z) := by
          intro t ht
          exact Finset.mem_filter.mpr
            ⟨Finset.mem_insert_of_mem (hTsub ht), hgt t ht⟩
        have hk2 := Finset.card_le_card hTfil
        rw [hcardT] at hk2
        unfold countGt at hcnt
        omega
    refine ⟨hxT, ?_⟩
    have hsub : (insert a (topK k s)).filter (fun z => x < z) ⊆
        (insert a s).filter (fun z => x < z) :=
      Finset.filter_subset_filter _ (Finset.insert_subset_insert a hTsub)
    have := Finset.card_le_card hsub
    unfold countGt at hcnt ⊢
    omega

theorem foldl_limitedDict {k : Nat} (hk : 1 ≤ k) :
    ∀ (keys : List Nat) (s : Finset Nat),
      keys.foldl (fun d kk => limitedDictSetItem k d kk) (topK k s) =
        topK k (s ∪ keys.toFinset) := by
  intro keys
  induction keys with
  | nil => intro s; simp
  | cons a t ih =>
    intro s
    rw [List.foldl_cons, limitedDictSetItem_eq_topK hk, topK_insert_topK,
      ih (insert a s)]
    congr 1
    ext x
    simp only [Finset.mem_union, Finset.mem_insert, List.toFinset_cons,
      List.mem_toFinset]
    tauto

/-- C3 (amended to retention limits `K ≥ 1`): after any sequence of
insertions into `LimitedDict(K)` starting from empty, the key set is exactly
the `K` numerically largest keys ever inserted (or all of them when fewer
than `K` distinct keys were inserted), and in particular never exceeds `K`
entries.  (For `K = 0` the code keeps every key: see the counterexample.) -/
theorem limitedDict_retention (k : Nat) (hk : 1 ≤ k) (keys : List Nat) :
    keys.foldl (fun d kk => limitedDictSetItem k d kk) ∅ = topK k keys.toFinset ∧
    (keys.foldl (fun d kk => limitedDictSetItem k d kk) ∅).card ≤ k := by
  have h0 : (∅ : Finset Nat) = topK k ∅ := by
    unfold topK
    simp
  rw [h0, foldl_limitedDict hk keys ∅, Finset.empty_union]
  exact ⟨rfl, topK_card_le k keys.toFinset⟩

/-- C3 counterexample: the claim admits `K = 0` ("any K ≥ 0"), but after
inserting one key into `LimitedDict(0)` the cache holds one entry, not at
most zero — the Python slice `sorted(d)[:-0] == []` evicts nothing. -/
theorem limitedDict_zero_counterexample :
    ¬ ((([5] : List Nat).foldl (fun d kk => limitedDictSetItem 0 d kk) ∅).card ≤ 0) := by
  decide

/-- C3 witness: the spec scenario, `K = 3`, inserting keys 1,2,3,4. -/
theorem limitedDict_retention_witness :
    ([1, 2, 3, 4] : List Nat).foldl (fun d kk => limitedDictSetItem 3 d kk) ∅ =
      topK 3 ([1, 2, 3, 4] : List Nat).toFinset ∧
    (([1, 2, 3, 4] : List Nat).foldl (fun d kk => limitedDictSetItem 3 d kk) ∅).card ≤ 3 :=
  limitedDict_retention 3 (by decide) [1, 2, 3, 4]

-- ### CPython binary64 division model (for `activation_queue.py` line
-- `int(n_pending / activation_churn)`, where `/` is float division)

/-- Fuel-driven floor-log₂ on naturals (`0` at `0` and `1`). -/
def natLog2fuel : Nat → Nat → Nat
  | 0, _ => 0
  | fuel + 1, n => if n ≤ 1 then 0 else natLog2fuel fuel (n / 2) + 1

/-- Floor of `log₂ n` for `n ≥ 1`, structurally computable. -/
def natLog2 (n : Nat) : Nat := natLog2fuel n n

/-- Smallest `m ≤ fuel` with `b ≤ a * 2 ^ m` (ceiling of `log₂ (b / a)`). -/
def ceilLog2fuel : Nat → Nat → Nat → Nat
  | 0, _, _ => 0
  | fuel + 1, a, b => if b ≤ a then 0 else ceilLog2fuel fuel (2 * a) b + 1

/-- Floor of `log₂ (a / b)` for `a, b ≥ 1`: `⌊log₂ ⌊a/b⌋⌋` when `a ≥ b`,
and `-⌈log₂ (b/a)⌉` when `a < b`. -/
def ratLog2 (a b : Nat) : Int :=
  if b ≤ a then (natLog2 (a / b) : Int) else -(ceilLog2fuel b a b : Int)

/-- Round to the nearest integer, ties to the even integer (IEEE-754
default rounding, at integer granularity). -/
def rne (x : ℚ) : ℤ :=
  if x - ⌊x⌋ < 1 / 2 then ⌊x⌋
  else if 1 / 2 < x - ⌊x⌋ then ⌊x⌋ + 1
  else if ⌊x⌋ % 2 = 0 then ⌊x⌋ else ⌊x⌋ + 1

/-- Correctly rounded binary64 value of the positive rational `a / b`
(`a, b ≥ 1`): scale into the binade `[2^52, 2^53)`, round the 53-bit
significand to nearest-even, scale back.  The exponent is unbounded: the
overflow and subnormal thresholds of binary64 are never reached by the
inputs considered in this development. -/
def floatDivPos (a b : Nat) : ℚ :=
  let e : Int := ratLog2 a b - 52
  ((rne (((a : ℚ) / (b : ℚ)) / 2 ^ e) : ℚ)) * 2 ^ e

/-- CPython `int(a / b)` on naturals with `b ≠ 0`: correctly rounded float
division, truncated toward zero. -/
def pyTruncDiv (a b : Nat) : Nat :=
  if a = 0 then 0 else (⌊floatDivPos a b⌋).toNat

theorem natLog2fuel_le {fuel n : Nat} (hn1 : 1 ≤ n) (hfn : n ≤ fuel) :
    2 ^ natLog2fuel fuel n ≤ n := by
  induction fuel generalizing n with
  | zero => omega
  | succ fuel ih =>
    by_cases h : n ≤ 1
    · have hn : n = 1 := by omega
      simp [natLog2fuel, h, hn]
    · have hstep : natLog2fuel (fuel + 1) n = natLog2fuel fuel (n / 2) + 1 := by
        simp [natLog2fuel, h]
      rw [hstep]
      have h2 : 1 ≤ n / 2 := by omega
      have h3 : n / 2 ≤ fuel := by omega
      have hrec := ih h2 h3
      rw [pow_succ]
      omega

theorem natLog2_le {n : Nat} (hn : 1 ≤ n) : 2 ^ natLog2 n ≤ n :=
  natLog2fuel_le hn (Nat.le_refl n)

theorem ceilLog2fuel_le {fuel a b : Nat} (ha : 1 ≤ a) (hab : b ≤ a * 2 ^ fuel) :
    b ≤ a * 2 ^ ceilLog2fuel fuel a b := by
  induction fuel generalizing a with
  | zero => simpa [ceilLog2fuel] using hab
  | succ fuel ih =>
    by_cases h : b ≤ a
    · have h0 : ceilLog2fuel (fuel + 1) a b = 0 := by simp [ceilLog2fuel, h]
      rw [h0, pow_zero, Nat.mul_one]
      exact h
    · have hstep : ceilLog2fuel (fuel + 1) a b = ceilLog2fuel fuel (2 * a) b + 1 := by
        simp [ceilLog2fuel, h]
      rw [hstep]
      have hab' : b ≤ 2 * a * 2 ^ fuel := by
        have he : a * 2 ^ (fuel + 1) = 2 * a * 2 ^ fuel := by ring
        rw [he] at hab
        exact hab
      have hrec := ih (by omega) hab'
      have he2 : a * 2 ^ (ceilLog2fuel fuel (2 * a) b + 1) =
          2 * a * 2 ^ ceilLog2fuel fuel (2 * a) b := by ring
      rw [he2]
      exact hrec

theorem ratLog2_le {a b : Nat} (ha : 1 ≤ a) (hb : 1 ≤ b) :
    (2 : ℚ) ^ ratLog2 a b ≤ (a : ℚ) / b := by
  have hb0 : (0 : ℚ) < b := by exact_mod_cast hb
  unfold ratLog2
  split_ifs with h
  · have h1 : 1 ≤ a / b := (Nat.one_le_div_iff (by omega)).mpr h
    have h2 : 2 ^ natLog2 (a / b) ≤ a / b := natLog2_le h1
    have h3 : ((a / b : Nat) : ℚ) ≤ (a : ℚ) / b := Nat.cast_div_le
    rw [zpow_natCast]
    calc ((2 : ℚ)) ^ natLog2 (a / b) = ((2 ^ natLog2 (a / b) : Nat) : ℚ) := by
          push_cast
          ring
      _ ≤ ((a / b : Nat) : ℚ) := by exact_mod_cast h2
      _ ≤ (a : ℚ) / b := h3
  · have hfuel : b ≤ a * 2 ^ b := by
      have h1 : b < 2 ^ b := Nat.lt_two_pow b
      have h2 : 2 ^ b ≤ a * 2 ^ b := Nat.le_mul_of_pos_left _ (by omega)
      omega
    have hm := ceilLog2fuel_le ha hfuel
    rw [zpow_neg, zpow_natCast]
    have h2m : (0 : ℚ) < 2 ^ ceilLog2fuel b a b := by positivity
    rw [inv_eq_one_div, div_le_div_iff h2m hb0, one_mul]
    calc (b : ℚ) ≤ ((a * 2 ^ ceilLog2fuel b a b : Nat) : ℚ) := by exact_mod_cast hm
      _ = (a : ℚ) * 2 ^ ceilLog2fuel b a b := by push_cast; ring

theorem ratLog2_lt {a b : Nat} (ha : 1 ≤ a) (hb : 1 ≤ b) {r : Nat}
    (h : (a : ℚ) / b < 2 ^ r) : ratLog2 a b < r := by
  by_contra hge
  push_neg at hge
  have h1 := ratLog2_le ha hb
  have h2 : (2 : ℚ) ^ (r : ℤ) ≤ (2 : ℚ) ^ ratLog2 a b :=
    zpow_le_zpow_right₀ (by norm_num) (by exact_mod_cast hge)
  rw [zpow_natCast] at h2
  linarith

theorem rne_intCast (n : ℤ) : rne (n : ℚ) = n := by
  unfold rne
  rw [Int.floor_intCast]
  rw [if_pos (by norm_num)]

theorem abs_rne_sub (x : ℚ) : |(rne x : ℚ) - x| ≤ 1 / 2 := by
  have h0 : (⌊x⌋ : ℚ) ≤ x := Int.floor_le x
  have h1 : x < ⌊x⌋ + 1 := Int.lt_floor_add_one x
  unfold rne
  split_ifs with hc1 hc2 hc3 <;>
    · rw [abs_le]
      push_cast
      constructor <;> linarith

theorem abs_floatDivPos_sub {a b : Nat} :
    |floatDivPos a b - (a : ℚ) / b| ≤ 2 ^ (ratLog2 a b - 52) / 2 := by
  unfold floatDivPos
  set e : Int := ratLog2 a b - 52 with hedef
  set q : ℚ := (a : ℚ) / b with hqdef
  have h2e : (0 : ℚ) < 2 ^ e := zpow_pos (by norm_num) e
  have h := abs_rne_sub (q / 2 ^ e)
  have hcd : (rne (q / 2 ^ e) : ℚ) * 2 ^ e - q =
      ((rne (q / 2 ^ e) : ℚ) - q / 2 ^ e) * 2 ^ e := by
    field_simp
  rw [hcd, abs_mul, abs_of_pos h2e]
  calc |(rne (q / 2 ^ e) : ℚ) - q / 2 ^ e| * 2 ^ e ≤ 1 / 2 * 2 ^ e :=
        mul_le_mul_of_nonneg_right h (le_of_lt h2e)
    _ = 2 ^ e / 2 := by ring

theorem floatDivPos_dvd {a b : Nat} (hb : 1 ≤ b) (ha : 1 ≤ a) (hd : b ∣ a)
    (hsz : (a : ℚ) / b < 2 ^ (53 : Nat)) :
    floatDivPos a b = ((a / b : Nat) : ℚ) := by
  have hb0 : (0 : ℚ) < b := by exact_mod_cast hb
  have hq : (a : ℚ) / b = ((a / b : Nat) : ℚ) := by
    rcases hd with ⟨c, rfl⟩
    rw [Nat.mul_div_cancel_left c (by omega : 0 < b)]
    push_cast
    rw [mul_comm, mul_div_assoc, div_self (ne_of_gt hb0), mul_one]
  have hlog : ratLog2 a b < 53 := ratLog2_lt ha hb hsz
  unfold floatDivPos
  show (rne ((a : ℚ) / b / 2 ^ (ratLog2 a b - 52)) : ℚ) * 2 ^ (ratLog2 a b - 52) =
    ((a / b : Nat) : ℚ)
  set e : Int := ratLog2 a b - 52 with hedef
  have hene : 0 ≤ -e := by omega
  have h2e : (2 : ℚ) ^ e ≠ 0 := zpow_ne_zero e (by norm_num)
  have hcast : ((2 : ℚ)) ^ (-e) = ((2 ^ (-e).toNat : Nat) : ℚ) := by
    rw [show -e = ((-e).toNat : Int) from (Int.toNat_of_nonneg hene).symm,
      zpow_natCast]
    push_cast
    rw [Int.toNat_natCast]
  have hint : (a : ℚ) / b / 2 ^ e = ((a / b * 2 ^ (-e).toNat : Nat) : ℚ) := by
    rw [hq, div_eq_mul_inv, ← zpow_neg, hcast]
    push_cast
    ring
  rw [hint]
  have hrne : rne (((a / b * 2 ^ (-e).toNat : Nat) : ℚ)) =
      ((a / b * 2 ^ (-e).toNat : Nat) : ℤ) := by
    have h := rne_intCast ((a / b * 2 ^ (-e).toNat : Nat) : ℤ)
    rwa [Int.cast_natCast] at h
  rw [hrne]
  have hsplit : (((a / b * 2 ^ (-e).toNat : Nat) : ℤ) : ℚ) =
      ((a / b : Nat) : ℚ) * ((2 ^ (-e).toNat : Nat) : ℚ) := by
    rw [Int.cast_natCast, Nat.cast_mul]
  rw [hsplit, ← hcast, mul_assoc, ← zpow_add₀ (by norm_num : (2 : ℚ) ≠ 0),
    neg_add_cancel, zpow_zero, mul_one]

theorem pyTruncDiv_eq {a b : Nat} (hb1 : 1 ≤ b) (hb8 : b ≤ 8) (ha : a < 2 ^ 49) :
    pyTruncDiv a b = a / b := by
  rcases Nat.eq_zero_or_pos a with rfl | hapos
  · simp [pyTruncDiv]
  unfold pyTruncDiv
  rw [if_neg (by omega)]
  have hb0 : (0 : ℚ) < b := by exact_mod_cast hb1
  have hqa : (a : ℚ) / b ≤ a := by
    rw [div_le_iff hb0]
    have h1 : (1 : ℚ) ≤ b := by exact_mod_cast hb1
    nlinarith [Nat.cast_nonneg (α := ℚ) a]
  have ha53 : (a : ℚ) < 2 ^ (53 : Nat) := by
    have h1 : (a : ℚ) < 2 ^ (49 : Nat) := by exact_mod_cast ha
    have h2 : (2 : ℚ) ^ (49 : Nat) < 2 ^ (53 : Nat) := by norm_num
    linarith
  by_cases hdvd : b ∣ a
  · rw [floatDivPos_dvd hb1 (by omega) hdvd (lt_of_le_of_lt hqa ha53)]
    rw [Int.floor_natCast]
    exact Int.toNat_natCast _
  · have hq49 : (a : ℚ) / b < 2 ^ (49 : Nat) := by
      have h1 : (a : ℚ) < 2 ^ (49 : Nat) := by exact_mod_cast ha
      exact lt_of_le_of_lt hqa h1
    have hlog : ratLog2 a b < 49 := ratLog2_lt (by omega) hb1 hq49
    have he4 : ratLog2 a b - 52 ≤ -4 := by omega
    have herr := @abs_floatDivPos_sub a b
    have hbound : (2 : ℚ) ^ (ratLog2 a b - 52) ≤ (2 : ℚ) ^ (-4 : Int) :=
      zpow_le_zpow_right₀ (by norm_num) he4
    have h16 : (2 : ℚ) ^ (-4 : Int) = 1 / 16 := by norm_num
    have hr1 : 1 ≤ a % b := by
      rcases Nat.eq_zero_or_pos (a % b) with h0 | h
      · exact absurd (Nat.dvd_of_mod_eq_zero h0) hdvd
      · exact h
    have hrb : a % b < b := Nat.mod_lt a (by omega)
    have hqmr : (a : ℚ) / b = ((a / b : Nat) : ℚ) + ((a % b : Nat) : ℚ) / b := by
      have hnat : (a : ℚ) = b * ((a / b : Nat) : ℚ) + ((a % b : Nat) : ℚ) := by
        exact_mod_cast (Nat.div_add_mod a b).symm
      rw [hnat]
      field_simp
      ring
    have hfrac_lo : (1 : ℚ) / 8 ≤ ((a % b : Nat) : ℚ) / b := by
      rw [div_le_div_iff (by norm_num) hb0]
      have h8 : (b : ℚ) ≤ 8 := by exact_mod_cast hb8
      have hr1' : (1 : ℚ) ≤ ((a % b : Nat) : ℚ) := by exact_mod_cast hr1
      nlinarith
    have hfrac_hi : ((a % b : Nat) : ℚ) / b ≤ 7 / 8 := by
      rw [div_le_div_iff hb0 (by norm_num)]
      have hn : (a % b) * 8 ≤ 7 * b := by omega
      exact_mod_cast hn
    rw [h16] at hbound
    obtain ⟨habs1, habs2⟩ := abs_le.mp herr
    generalize hX : (2 : ℚ) ^ (ratLog2 a b - 52) = X at hbound habs1 habs2
    have hlo : ((a / b : Nat) : ℚ) ≤ floatDivPos a b := by
      linarith
    have hhi : floatDivPos a b < ((a / b : Nat) : ℚ) + 1 := by
      linarith
    have hfloor : ⌊floatDivPos a b⌋ = ((a / b : Nat) : ℤ) := by
      rw [Int.floor_eq_iff]
      constructor
      · exact_mod_cast hlo
      · push_cast
        exact hhi
    rw [hfloor]
    exact Int.toNat_natCast _

theorem rne_eq_floor {x : ℚ} (h : x - ⌊x⌋ < 1 / 2) : rne x = ⌊x⌋ := by
  unfold rne
  rw [if_pos h]

theorem rne_eq_ceil {x : ℚ} (h : 1 / 2 < x - ⌊x⌋) : rne x = ⌊x⌋ + 1 := by
  unfold rne
  rw [if_neg (by linarith), if_pos h]

/-- Evaluation scheme for `pyTruncDiv` at a concrete input, from the
evaluated exponent, significand and result floor. -/
theorem pyTruncDiv_eval {a b v : Nat} {L m : Int} {x : ℚ}
    (ha : a ≠ 0) (hL : ratLog2 a b = L)
    (hx : (a : ℚ) / b / 2 ^ (L - 52) = x)
    (hrne : rne x = m)
    (hres : ⌊(m : ℚ) * 2 ^ (L - 52)⌋ = (v : Int)) :
    pyTruncDiv a b = v := by
  unfold pyTruncDiv floatDivPos
  rw [if_neg ha]
  show (⌊(rne ((a : ℚ) / b / 2 ^ (ratLog2 a b - 52)) : ℚ) *
    2 ^ (ratLog2 a b - 52)⌋).toNat = v
  rw [hL, hx, hrne, hres]
  exact Int.toNat_natCast v

/-- `service/activation_queue.py::get_activation_churn`, parameterized by the
configured `MAX_PER_EPOCH_ACTIVATION_CHURN_LIMIT` and `CHURN_LIMIT_QUOTIENT`
(the claim instantiates them to 8 and 65536). -/
def get_activation_churn (maxChurn churnQuotient n_active_validators : Nat) : Nat :=
  Nat.min maxChurn (n_active_validators / churnQuotient)

/-- `service/activation_queue.py::compute_activation_duration`:
`int(n_pending / churn)` is CPython float division truncated toward zero
(`ZeroDivisionError` when the churn is zero), scaled by `SECONDS_PER_EPOCH`. -/
def compute_activation_duration (maxChurn churnQuotient secondsPerEpoch : Nat)
    (n_active_validators n_pending_validators : Nat) : Except PyErr Nat :=
  let activation_churn := get_activation_churn maxChurn churnQuotient n_active_validators
  if activation_churn = 0 then .error .zeroDivisionError
  else .ok (pyTruncDiv n_pending_validators activation_churn * secondsPerEpoch)

/-- C5 (amended): with cap 8 and quotient 65536, the churn is
`min 8 (n_active / 65536)`; a zero churn surfaces a `ZeroDivisionError`
instead of a value; and the duration equals exact integer floor division
`(n_pending / churn) × SECONDS_PER_EPOCH` whenever `n_pending < 2^49` —
in particular churn(500000) = 7 and duration(500000, 1000) = 142 ×
SECONDS_PER_EPOCH.  (Unrestricted, the claim fails: the code divides in
binary64, which can round up across an integer — see the counterexample.) -/
theorem compute_activation_duration_spec :
    (∀ spe n_active n_pending : Nat,
      get_activation_churn 8 65536 n_active = 0 →
      compute_activation_duration 8 65536 spe n_active n_pending =
        .error .zeroDivisionError) ∧
    (∀ spe n_active n_pending : Nat,
      get_activation_churn 8 65536 n_active ≠ 0 → n_pending < 2 ^ 49 →
      compute_activation_duration 8 65536 spe n_active n_pending =
        .ok (n_pending / get_activation_churn 8 65536 n_active * spe)) ∧
    get_activation_churn 8 65536 500000 = 7 ∧
    (∀ spe : Nat,
      compute_activation_duration 8 65536 spe 500000 1000 = .ok (142 * spe)) := by
  have hmain : ∀ spe n_active n_pending : Nat,
      get_activation_churn 8 65536 n_active ≠ 0 → n_pending < 2 ^ 49 →
      compute_activation_duration 8 65536 spe n_active n_pending =
        .ok (n_pending / get_activation_churn 8 65536 n_active * spe) := by
    intro spe n_active n_pending hch hlt
    unfold compute_activation_duration
    rw [if_neg hch]
    have hle8 : get_activation_churn 8 65536 n_active ≤ 8 := Nat.min_le_left _ _
    rw [pyTruncDiv_eq (by omega) hle8 hlt]
  refine ⟨?_, hmain, by decide, ?_⟩
  · intro spe n_active n_pending hch
    unfold compute_activation_duration
    rw [if_pos hch]
  · intro spe
    have h := hmain spe 500000 1000 (by decide) (by norm_num)
    rw [h]
    norm_num [get_activation_churn]

/-- C5 counterexample: at `n_active = 500000` (churn 7) and
`n_pending = 31525197391593478 = 7·2^52 + 6`, CPython computes
`int(n_pending / 7) = 2^52 + 1` — the quotient `2^52 + 6/7` rounds UP to the
next representable double `2^52 + 1` — while exact floor division gives
`2^52`; so the claimed identity `duration = floor(n_pending/churn) × SPE`
fails (here with `SECONDS_PER_EPOCH = 384`). -/
theorem compute_activation_duration_counterexample :
    compute_activation_duration 8 65536 384 500000 31525197391593478 =
      .ok (4503599627370497 * 384) ∧
    31525197391593478 / get_activation_churn 8 65536 500000 =
      4503599627370496 ∧
    compute_activation_duration 8 65536 384 500000 31525197391593478 ≠
      .ok (31525197391593478 / get_activation_churn 8 65536 500000 * 384) := by
  have hch : get_activation_churn 8 65536 500000 = 7 := by decide
  have hL : ratLog2 31525197391593478 7 = 52 := by decide
  have hx : ((31525197391593478 : Nat) : ℚ) / ((7 : Nat) : ℚ) / 2 ^ ((52 : Int) - 52) =
      31525197391593478 / 7 := by
    norm_num
  have hfloor : ⌊(31525197391593478 : ℚ) / 7⌋ = 4503599627370496 := by
    rw [Int.floor_eq_iff]
    norm_num
  have hrne : rne ((31525197391593478 : ℚ) / 7) = 4503599627370497 := by
    rw [rne_eq_ceil (by rw [hfloor]; norm_num), hfloor]
    norm_num
  have hres : ⌊((4503599627370497 : Int) : ℚ) * 2 ^ ((52 : Int) - 52)⌋ =
      ((4503599627370497 : Nat) : Int) := by
    norm_num
  have hdiv : pyTruncDiv 31525197391593478 7 = 4503599627370497 :=
    pyTruncDiv_eval (by norm_num) hL hx hrne hres
  have hval : compute_activation_duration 8 65536 384 500000 31525197391593478 =
      .ok (4503599627370497 * 384) := by
    unfold compute_activation_duration
    rw [hch]
    rw [if_neg (by norm_num), hdiv]
  refine ⟨hval, by decide, ?_⟩
  rw [hval, hch]
  intro h
  have := Except.ok.inj h
  omega

/-- C5 witness: zero churn errors (n_active = 1000 < 65536); the spec's
worked example churn(500000) = 7 and duration(500000, 1000) with
`SECONDS_PER_EPOCH = 384` equals `142 × 384`. -/
theorem compute_activation_duration_spec_witness :
    compute_activation_duration 8 65536 384 1000 5 = .error .zeroDivisionError ∧
    get_activation_churn 8 65536 500000 = 7 ∧
    compute_activation_duration 8 65536 384 500000 1000 = .ok (142 * 384) :=
  ⟨compute_activation_duration_spec.1 384 1000 5 (by decide),
    compute_activation_duration_spec.2.2.1,
    compute_activation_duration_spec.2.2.2 384⟩

-- ### C8: the slot clock (`service/utils.py::get_next_slot`)

/-- First slot computed by `get_next_slot`:
`int((time() - genesis_time_sec) / SECONDS_PER_SLOT) + 1`.  CPython `int()`
truncates the float quotient toward zero, which is `Int.tdiv` on the exact
quotient.  Time is modelled in whole seconds; at wall-clock magnitudes
(far below 2^49) the binary64 quotient truncates to the same integer as
the exact rational quotient. -/
def get_next_slot_first (genesis_time_sec now seconds_per_slot : Int) : Int :=
  Int.tdiv (now - genesis_time_sec) seconds_per_slot + 1

/-- The `k`-th `(next_slot, next_slot_time_sec)` pair yielded by the
`get_next_slot` generator: the slot counter starts at the first slot and is
incremented by one after every yield. -/
def get_next_slot_emit (genesis_time_sec now seconds_per_slot : Int)
    (k : Nat) : Int × Int :=
  let next_slot := get_next_slot_first genesis_time_sec now seconds_per_slot + k
  (next_slot, genesis_time_sec + next_slot * seconds_per_slot)

/-- C8 (amended): the first emitted slot is the *truncated* quotient plus
one — equal to the claimed `floor((now - genesis)/SECONDS_PER_SLOT) + 1`
whenever `now ≥ genesis_time`, but not pre-genesis (see counterexample);
every emitted pair satisfies `start_time = genesis_time + slot ×
SECONDS_PER_SLOT`; and consecutive emitted slots increase by exactly 1. -/
theorem get_next_slot_spec (genesis now sps : Int) (hsps : 0 < sps) :
    (genesis ≤ now →
      get_next_slot_first genesis now sps = Int.fdiv (now - genesis) sps + 1) ∧
    (∀ k : Nat,
      (get_next_slot_emit genesis now sps k).2 =
        genesis + (get_next_slot_emit genesis now sps k).1 * sps) ∧
    (∀ k : Nat,
      (get_next_slot_emit genesis now sps (k + 1)).1 =
        (get_next_slot_emit genesis now sps k).1 + 1) := by
  refine ⟨?_, fun k => rfl, ?_⟩
  · intro h
    unfold get_next_slot_first
    rw [Int.fdiv_eq_tdiv (by omega) (by omega)]
  · intro k
    unfold get_next_slot_emit get_next_slot_first
    push_cast
    ring

/-- C8 witness: genesis 100, now 136, slot length 12 — first slot 4,
emitted pairs as claimed. -/
theorem get_next_slot_spec_witness :
    get_next_slot_first 100 136 12 = Int.fdiv (136 - 100) 12 + 1 ∧
    (get_next_slot_emit 100 136 12 0).2 =
      100 + (get_next_slot_emit 100 136 12 0).1 * 12 ∧
    (get_next_slot_emit 100 136 12 1).1 = (get_next_slot_emit 100 136 12 0).1 + 1 :=
  ⟨(get_next_slot_spec 100 136 12 (by decide)).1 (by decide),
    (get_next_slot_spec 100 136 12 (by decide)).2.1 0,
    (get_next_slot_spec 100 136 12 (by decide)).2.2 0⟩

/-- C8 counterexample: pre-genesis, `now - genesis = -25` and
`SECONDS_PER_SLOT = 12`: the claim's floor formula gives `⌊-25/12⌋ + 1 =
-3 + 1 = -2`, but CPython `int(-25/12) + 1 = -2 + 1 = -1` — `int()`
truncates toward zero, it does not floor. -/
theorem get_next_slot_counterexample :
    get_next_slot_first 100 75 12 = -1 ∧
    Int.fdiv (75 - 100) 12 + 1 = -2 ∧
    get_next_slot_first 100 75 12 ≠ Int.fdiv (75 - 100) 12 + 1 := by
  refine ⟨by decide, by decide, by decide⟩

-- ### C4: `service/cl_node.py` — Prysm/Nimbus rewards and Nimbus liveness

/-- `data_types.py::ConsensusClient`. -/
inductive ConsensusClient where
  | lighthouse
  | prysm
  | teku
  | nimbus
  | other
  deriving DecidableEq

/-- `data_types.py::Rewards.Data`: its declared (required, no-default)
fields are `ideal_rewards` and `total_rewards`.  The reward entries
themselves are irrelevant to C4 and collapsed to opaque numbers. -/
structure RewardsData where
  ideal_rewards : List Int
  total_rewards : List Int
  deriving DecidableEq

/-- Python dict lookup with string keys. -/
def pyLookupStr {β : Type} (l : List (String × β)) (k : String) : Option β :=
  (l.find? (fun p => p.1 == k)).map Prod.snd

/-- pydantic construction semantics for `Rewards.Data(**kwargs)`: unknown
keyword arguments are ignored (default model config), and a missing
required field — `ideal_rewards` or `total_rewards` — raises a
`ValidationError`. -/
def pydanticRewardsData (kwargs : List (String × List Int)) :
    Except PyErr RewardsData :=
  match pyLookupStr kwargs "ideal_rewards", pyLookupStr kwargs "total_rewards" with
  | some i, some t => .ok ⟨i, t⟩
  | _, _ => .error .validationError

/-- `service/cl_node.py::ConsensusNode.get_rewards`.  State threaded
explicitly: `first_rewards_call` is the instance flag; the result triple is
(warning printed this call, new flag value, outcome).  For Nimbus/Prysm the
source evaluates
`Rewards(data=Rewards.Data(possible_rewards=[], earned_rewards=[]))`; both
declared required fields are missing, so construction raises.  Any other
client tag queries the beacon node, abstracted as the `beacon` argument. -/
def get_rewards (cl_client : ConsensusClient) (first_rewards_call : Bool)
    (beacon : RewardsData) : Bool × Bool × Except PyErr RewardsData :=
  if cl_client = .nimbus ∨ cl_client = .prysm then
    (first_rewards_call, false,
      pydanticRewardsData [("possible_rewards", []), ("earned_rewards", [])])
  else
    (false, first_rewards_call, .ok beacon)

/-- `service/cl_node.py::ConsensusNode.get_validators_liveness`, Nimbus
branch: synthesize `{index: True for index in validators_index}` without
contacting the node, with a one-shot warning.  The other clients dispatch
an HTTP request, abstracted as the `beacon` argument. -/
def get_validators_liveness (cl_client : ConsensusClient)
    (first_liveness_call : Bool) (validators_index : Finset Nat)
    (beacon : Finset (Nat × Bool)) : Bool × Bool × Finset (Nat × Bool) :=
  if cl_client = .nimbus then
    (first_liveness_call, false, validators_index.image fun index => (index, true))
  else
    (false, first_liveness_call, beacon)

/-- C4: the Nimbus-liveness half of the claim holds — every queried index
maps to live=True, with a warning only on the first call — but the
Prysm/Nimbus rewards half does not: the code constructs `Rewards.Data`
with keyword arguments `possible_rewards`/`earned_rewards` while the model
declares `ideal_rewards`/`total_rewards` (`data_types.py`), so instead of
returning an empty `Rewards` value the call raises a pydantic
`ValidationError`, on every such call. -/
theorem get_rewards_prysm_nimbus_bug :
    (∀ (tag : ConsensusClient) (first : Bool) (beacon : RewardsData),
      tag = .nimbus ∨ tag = .prysm →
      (get_rewards tag first beacon).2.2 = .error .validationError ∧
      (get_rewards tag first beacon).1 = first ∧
      (get_rewards tag first beacon).2.1 = false) ∧
    (∀ (first : Bool) (validators_index : Finset Nat)
      (beacon : Finset (Nat × Bool)),
      (get_validators_liveness .nimbus first validators_index beacon).2.2 =
        (validators_index.image fun index => (index, true)) ∧
      (get_validators_liveness .nimbus first validators_index beacon).1 = first ∧
      (get_validators_liveness .nimbus first validators_index beacon).2.1 = false) := by
  constructor
  · intro tag first beacon htag
    have hcond : tag = ConsensusClient.nimbus ∨ tag = ConsensusClient.prysm := htag
    unfold get_rewards
    rw [if_pos hcond]
    exact ⟨rfl, rfl, rfl⟩
  · intro first validators_index beacon
    unfold get_validators_liveness
    rw [if_pos rfl]
    exact ⟨rfl, rfl, rfl⟩

/-- C4 witness: concrete evaluation at Prysm and Nimbus with a first call —
the rewards call raises the validation error (it never yields the claimed
empty `Rewards`), and Nimbus liveness reports indices 3 and 7 live. -/
theorem get_rewards_prysm_nimbus_bug_witness :
    (get_rewards .prysm true ⟨[], []⟩).2.2 = .error .validationError ∧
    (get_rewards .nimbus true ⟨[], []⟩).2.2 = .error .validationError ∧
    (get_validators_liveness .nimbus true {3, 7} ∅).2.2 =
      ({(3, true), (7, true)} : Finset (Nat × Bool)) := by
  refine ⟨(get_rewards_prysm_nimbus_bug.1 .prysm true ⟨[], []⟩ (Or.inr rfl)).1,
    (get_rewards_prysm_nimbus_bug.1 .nimbus true ⟨[], []⟩ (Or.inl rfl)).1, ?_⟩
  rw [(get_rewards_prysm_nimbus_bug.2 true {3, 7} ∅).1]
  decide

-- ### C2: `service/blocks.py::process_missed_blocks_finalized`

/-- An alert emitted by the finalized-block reconciliation (the formatted
message together with the optional Telegram broadcast, reduced to its
discriminating content). -/
inductive BlockEvent where
  | proposed (slot : Nat) (pubkey : String)
  | missed (slot : Nat) (pubkey : String)
  deriving DecidableEq

def BlockEvent.isMissed : BlockEvent → Bool
  | .missed _ _ => true
  | .proposed _ _ => false

def BlockEvent.isProposed : BlockEvent → Bool
  | .proposed _ _ => true
  | .missed _ _ => false

/-- `service/blocks.py::process_missed_blocks_finalized`.  The consensus
node is abstracted by `proposer_duties` (the pubkey the proposer duties of
the enclosing epoch assign to a slot; `none` makes the source's `next(...)`
raise `StopIteration`), `header_exists` (`get_header(slot)` succeeds /
raises `NoBlockError`), and `last_finalized_slot` (the slot of the
finalized header fetched at entry).  The result carries the return value
and the observable effects in order: the alerts, the number of
`n_missed_finalized_proposals` increments, and the total added to the
block-reward counter. -/
def process_missed_blocks_finalized
    (proposer_duties : Nat → Option String) (header_exists : Nat → Bool)
    (last_finalized_slot : Nat)
    (last_processed_finalized_slot slot block_reward : Nat)
    (own_pubkeys : Finset String) :
    Except PyErr (Nat × List BlockEvent × Nat × Nat) :=
  if ¬ (last_processed_finalized_slot ≤ slot) then .error .assertionError
  else do
    let slots := List.range' (last_processed_finalized_slot + 1)
      (last_finalized_slot - last_processed_finalized_slot)
    let st ← slots.foldlM (fun (acc : List BlockEvent × Nat × Nat) slot_ => do
      match proposer_duties slot_ with
      | none => .error .stopIteration
      | some proposer_pubkey =>
        if proposer_pubkey ∈ own_pubkeys then
          if header_exists slot_ then
            pure (acc.1 ++ [.proposed slot_ proposer_pubkey],
              acc.2.1, acc.2.2 + block_reward)
          else
            pure (acc.1 ++ [.missed slot_ proposer_pubkey],
              acc.2.1 + 1, acc.2.2)
        else pure acc) (([] : List BlockEvent), 0, 0)
    pure (last_finalized_slot, st.1, st.2.1, st.2.2)

/-- The alert sequence the claim prescribes for a span of slots: for every
slot with an own proposer, one `proposed` alert when its header exists and
one `missed` alert when it does not; nothing for other slots. -/
def finalizedEvents (proposer_duties : Nat → Option String)
    (header_exists : Nat → Bool) (own_pubkeys : Finset String)
    (slots : List Nat) : List BlockEvent :=
  slots.flatMap fun s =>
    match proposer_duties s with
    | none => []
    | some pk =>
      if pk ∈ own_pubkeys then
        [if header_exists s then .proposed s pk else .missed s pk]
      else []

theorem finalized_fold_aux (proposer_duties : Nat → Option String)
    (header_exists : Nat → Bool) (own_pubkeys : Finset String)
    (block_reward : Nat) :
    ∀ (slots : List Nat) (acc : List BlockEvent × Nat × Nat),
      (∀ s ∈ slots, (proposer_duties s).isSome) →
      slots.foldlM (fun (acc : List BlockEvent × Nat × Nat) slot_ => do
        match proposer_duties slot_ with
        | none => .error .stopIteration
        | some proposer_pubkey =>
          if proposer_pubkey ∈ own_pubkeys then
            if header_exists slot_ then
              pure (acc.1 ++ [.proposed slot_ proposer_pubkey],
                acc.2.1, acc.2.2 + block_reward)
            else
              pure (acc.1 ++ [.missed slot_ proposer_pubkey],
                acc.2.1 + 1, acc.2.2)
          else pure acc) acc =
      (.ok
        (acc.1 ++ finalizedEvents proposer_duties header_exists own_pubkeys slots,
         acc.2.1 + ((finalizedEvents proposer_duties header_exists own_pubkeys
            slots).filter BlockEvent.isMissed).length,
         acc.2.2 + block_reward * ((finalizedEvents proposer_duties header_exists
            own_pubkeys slots).filter BlockEvent.isProposed).length) :
        Except PyErr (List BlockEvent × Nat × Nat)) := by
  intro slots
  induction slots with
  | nil =>
    intro acc _
    simp [finalizedEvents, List.foldlM]
    rfl
  | cons s t ih =>
    intro acc hdef
    have hs : (proposer_duties s).isSome := hdef s (by simp)
    obtain ⟨pk, hpk⟩ := Option.isSome_iff_exists.mp hs
    have ht : ∀ x ∈ t, (proposer_duties x).isSome :=
      fun x hx => hdef x (by simp [hx])
    have hev : finalizedEvents proposer_duties header_exists own_pubkeys (s :: t) =
        (if pk ∈ own_pubkeys then
          [if header_exists s then BlockEvent.proposed s pk
           else BlockEvent.missed s pk] else []) ++
        finalizedEvents proposer_duties header_exists own_pubkeys t := by
      simp [finalizedEvents, hpk]
    rw [List.foldlM_cons, hev]
    by_cases hown : pk ∈ own_pubkeys
    · by_cases hhdr : header_exists s
      · have hstep : (do
            match proposer_duties s with
            | none => (.error .stopIteration : Except PyErr (List BlockEvent × Nat × Nat))
            | some proposer_pubkey =>
              if proposer_pubkey ∈ own_pubkeys then
                if header_exists s then
                  pure (acc.1 ++ [.proposed s proposer_pubkey],
                    acc.2.1, acc.2.2 + block_reward)
                else
                  pure (acc.1 ++ [.missed s proposer_pubkey],
                    acc.2.1 + 1, acc.2.2)
              else pure acc) =
            (.ok (acc.1 ++ [.proposed s pk], acc.2.1, acc.2.2 + block_reward) :
              Except PyErr (List BlockEvent × Nat × Nat)) := by
          rw [hpk]
          show (if pk ∈ own_pubkeys then _ else _) = _
          rw [if_pos hown, if_pos hhdr]
          rfl
        rw [hstep]
        show (t.foldlM _ _ : Except PyErr (List BlockEvent × Nat × Nat)) = _
        rw [ih _ ht]
        rw [if_pos hown, if_pos hhdr]
        have hm : List.filter BlockEvent.isMissed [BlockEvent.proposed s pk] =
            [] := rfl
        have hp : List.filter BlockEvent.isProposed [BlockEvent.proposed s pk] =
            [BlockEvent.proposed s pk] := rfl
        simp only [Except.ok.injEq, Prod.mk.injEq, List.filter_append, hm, hp,
          List.nil_append, List.append_assoc, List.length_append,
          List.length_cons, List.length_nil, Nat.mul_add, Nat.mul_one]
        refine ⟨?_, ?_, ?_⟩ <;> first | trivial | omega
      · have hstep : (do
            match proposer_duties s with
            | none => (.error .stopIteration : Except PyErr (List BlockEvent × Nat × Nat))
            | some proposer_pubkey =>
              if proposer_pubkey ∈ own_pubkeys then
                if header_exists s then
                  pure (acc.1 ++ [.proposed s proposer_pubkey],
                    acc.2.1, acc.2.2 + block_reward)
                else
                  pure (acc.1 ++ [.missed s proposer_pubkey],
                    acc.2.1 + 1, acc.2.2)
              else pure acc) =
            (.ok (acc.1 ++ [.missed s pk], acc.2.1 + 1, acc.2.2) :
              Except PyErr (List BlockEvent × Nat × Nat)) := by
          rw [hpk]
          show (if pk ∈ own_pubkeys then _ else _) = _
          rw [if_pos hown, if_neg hhdr]
          rfl
        rw [hstep]
        show (t.foldlM _ _ : Except PyErr (List BlockEvent × Nat × Nat)) = _
        rw [ih _ ht]
        rw [if_pos hown, if_neg hhdr]
        have hm : List.filter BlockEvent.isMissed [BlockEvent.missed s pk] =
            [BlockEvent.missed s pk] := rfl
        have hp : List.filter BlockEvent.isProposed [BlockEvent.missed s pk] =
            [] := rfl
        simp only [Except.ok.injEq, Prod.mk.injEq, List.filter_append, hm, hp,
          List.nil_append, List.append_assoc, List.length_append,
          List.length_cons, List.length_nil, Nat.mul_add, Nat.mul_one]
        refine ⟨?_, ?_, ?_⟩ <;> first | trivial | omega
    · have hstep : (do
          match proposer_duties s with
          | none => (.error .stopIteration : Except PyErr (List BlockEvent × Nat × Nat))
          | some proposer_pubkey =>
            if proposer_pubkey ∈ own_pubkeys then
              if header_exists s then
                pure (acc.1 ++ [.proposed s proposer_pubkey],
                  acc.2.1, acc.2.2 + block_reward)
              else
                pure (acc.1 ++ [.missed s proposer_pubkey],
                  acc.2.1 + 1, acc.2.2)
            else pure acc) =
          (.ok acc : Except PyErr (List BlockEvent × Nat × Nat)) := by
        rw [hpk]
        show (if pk ∈ own_pubkeys then _ else _) = _
        rw [if_neg hown]
        rfl
      rw [hstep]
      show (t.foldlM _ _ : Except PyErr (List BlockEvent × Nat × Nat)) = _
      rw [ih _ ht]
      rw [if_neg hown]
      simp

/-- C2: whenever the recorded `last_processed_finalized_slot` does not
exceed the current slot and every slot of the span
`(last_processed_finalized_slot, finalized_slot]` has a proposer duty,
`process_missed_blocks_finalized` returns the new finalized slot and, for
exactly the slots of that span whose proposer is an own key, emits one
`proposed` alert when the header fetch succeeds (adding the block reward
once) and one `missed` alert when it raises `NoBlockError` (incrementing
`n_missed_finalized_proposals` exactly once); slots with non-own proposers
contribute no alert and no counter change. -/
theorem process_missed_blocks_finalized_spec
    (proposer_duties : Nat → Option String) (header_exists : Nat → Bool)
    (last_finalized_slot last_processed slot block_reward : Nat)
    (own_pubkeys : Finset String)
    (hle : last_processed ≤ slot)
    (hduty : ∀ s ∈ List.range' (last_processed + 1)
      (last_finalized_slot - last_processed), (proposer_duties s).isSome) :
    process_missed_blocks_finalized proposer_duties header_exists
      last_finalized_slot last_processed slot block_reward own_pubkeys =
    .ok (last_finalized_slot,
      finalizedEvents proposer_duties header_exists own_pubkeys
        (List.range' (last_processed + 1) (last_finalized_slot - last_processed)),
      ((finalizedEvents proposer_duties header_exists own_pubkeys
        (List.range' (last_processed + 1)
          (last_finalized_slot - last_processed))).filter
        BlockEvent.isMissed).length,
      block_reward * ((finalizedEvents proposer_duties header_exists own_pubkeys
        (List.range' (last_processed + 1)
          (last_finalized_slot - last_processed))).filter
        BlockEvent.isProposed).length) := by
  unfold process_missed_blocks_finalized
  rw [if_neg (by omega)]
  show ((List.range' (last_processed + 1)
      (last_finalized_slot - last_processed)).foldlM
      (fun (acc : List BlockEvent × Nat × Nat) slot_ =>
        match proposer_duties slot_ with
        | none =>
          (Except.error PyErr.stopIteration :
            Except PyErr (List BlockEvent × Nat × Nat))
        | some proposer_pubkey =>
          if proposer_pubkey ∈ own_pubkeys then
            if header_exists slot_ then
              pure (acc.1 ++ [BlockEvent.proposed slot_ proposer_pubkey],
                acc.2.1, acc.2.2 + block_reward)
            else
              pure (acc.1 ++ [BlockEvent.missed slot_ proposer_pubkey],
                acc.2.1 + 1, acc.2.2)
          else pure acc) (([] : List BlockEvent), 0, 0) >>=
      fun st => pure (last_finalized_slot, st.1, st.2.1, st.2.2)) = _
  rw [finalized_fold_aux proposer_duties header_exists own_pubkeys block_reward
    (List.range' (last_processed + 1) (last_finalized_slot - last_processed))
    (([] : List BlockEvent), 0, 0) hduty]
  simp

/-- C2 witness: the spec's finalized-reconciliation scenario — last
processed slot 100, finalized slot 103, own proposers at 101 (block
present) and 103 (block absent), a foreign proposer at 102: one `proposed`
alert for 101 carrying the reward 5, one `missed` alert for 103, one
counter increment, return value 103. -/
theorem process_missed_blocks_finalized_spec_witness :
    process_missed_blocks_finalized
      (fun s => if s = 101 then some "0xaa" else if s = 102 then some "0xbb"
        else if s = 103 then some "0xcc" else none)
      (fun s => s != 103) 103 100 100 5 {"0xaa", "0xcc"} =
    .ok (103, [.proposed 101 "0xaa", .missed 103 "0xcc"], 1, 5) := by
  rw [process_missed_blocks_finalized_spec _ _ _ _ _ _ _ (by omega) (by decide)]
  rfl

-- ### C10: `service/validators.py::ValidatorsSlashed.process`

/-- `data_types.py::Validators.DataItem.Validator`, reduced to the fields
this tracker reads. -/
structure Validator where
  pubkey : String
  slashed : Bool
  deriving DecidableEq

/-- The remembered state of `ValidatorsSlashed` (`None` before priming). -/
structure SlashedState where
  total_exited_slashed_indexes : Option (Finset Nat)
  own_exited_slashed_indexes : Option (Finset Nat)
  deriving DecidableEq

/-- Key set of a Python dict. -/
def dictKeys (d : List (Nat × Validator)) : Finset Nat :=
  (d.map Prod.fst).toFinset

/-- `service/validators.py::ValidatorsSlashed.process`.  The gauge updates
(lines 110-131) read only the inputs and are elided.  After priming, the
informational loop over `not_own_new_exited_slashed_indexes` subscripts
that *set* (`not_own_new_exited_slashed_indexes[index]`, line 157), so its
first iteration raises `TypeError`; the remembered sets are reassigned only
at the very end, after both loops.  The returned pair is (state after the
call, outcome with the alert pubkeys of the own loop). -/
def validatorsSlashedProcess (st : SlashedState)
    (total_exited_slashed_index2validator : List (Nat × Validator))
    (own_exited_slashed_index2validator : List (Nat × Validator)) :
    SlashedState × Except PyErr (List String) :=
  let total_exited_slashed_indexes := dictKeys total_exited_slashed_index2validator
  let own_exited_slashed_indexes := dictKeys own_exited_slashed_index2validator
  match st.total_exited_slashed_indexes, st.own_exited_slashed_indexes with
  | some prevTotal, some prevOwn =>
    let total_new := total_exited_slashed_indexes \ prevTotal
    let own_new := own_exited_slashed_indexes \ prevOwn
    let not_own_new := total_new \ own_new
    if not_own_new = ∅ then
      match (own_new.sort (fun a b : Nat => a ≤ b)).mapM (fun index =>
        (pyGetItem own_exited_slashed_index2validator index).map
          Validator.pubkey) with
      | .error e => (st, .error e)
      | .ok msgs =>
        (⟨some total_exited_slashed_indexes, some own_exited_slashed_indexes⟩,
          .ok msgs)
    else (st, .error .typeError)
  | _, _ =>
    (⟨some total_exited_slashed_indexes, some own_exited_slashed_indexes⟩,
      .ok [])

/-- C10: once primed, any call whose network exited-slashed key set has a
new index that is not also a new own exited-slashed index raises
`TypeError` (the informational path subscripts a set), and the remembered
state is exactly the state before the call. -/
theorem validatorsSlashedProcess_typeError
    (prevTotal prevOwn : Finset Nat)
    (total_d own_d : List (Nat × Validator))
    (h : (dictKeys total_d \ prevTotal) \ (dictKeys own_d \ prevOwn) ≠ ∅) :
    validatorsSlashedProcess ⟨some prevTotal, some prevOwn⟩ total_d own_d =
      (⟨some prevTotal, some prevOwn⟩, .error .typeError) := by
  unfold validatorsSlashedProcess
  dsimp only
  rw [if_neg h]

/-- C10 witness: primed with remembered sets {1} and ∅; the network set
gains index 2 which is not a new own index — the call raises `TypeError`
and leaves the remembered sets untouched. -/
theorem validatorsSlashedProcess_typeError_witness :
    validatorsSlashedProcess ⟨some {1}, some ∅⟩
      [(1, ⟨"0xaa", true⟩), (2, ⟨"0xdd", true⟩)] [] =
    (⟨some {1}, some ∅⟩, .error .typeError) :=
  validatorsSlashedProcess_typeError {1} ∅
    [(1, ⟨"0xaa", true⟩), (2, ⟨"0xdd", true⟩)] [] (by decide)

-- ### C9: per-epoch key refresh (`service/app.py::handle`, `service/utils.py`)

/-- Modelled from the spec: `ETH2_ADDRESS_LEN` is read from
`configs/config.yml`, which is not under `src/`; the spec fixes validator
public keys at 96 hex characters (48 bytes). -/
def ETH2_ADDRESS_LEN : Nat := 96

/-- One character of the `[0-9a-f]` class. -/
def isLowerHexDigit (c : Char) : Bool :=
  decide (('0' ≤ c ∧ c ≤ '9') ∨ ('a' ≤ c ∧ c ≤ 'f'))

/-- Full match of the regex `^(0x)?[0-9a-f]{96}$` (with
`ETH2_ADDRESS_LEN = 96`).  Strings are embedded as their character
lists. -/
def eth2Regex (s : List Char) : Bool :=
  (s.take 2 == ['0', 'x'] && (s.drop 2).all isLowerHexDigit &&
    (s.drop 2).length == ETH2_ADDRESS_LEN) ||
  (s.all isLowerHexDigit && s.length == ETH2_ADDRESS_LEN)

/-- `service/utils.py::eth2_address_lower_0x_prefixed`: lowercase the key,
require the regex to match in full (`ValueError` otherwise), and add the
`0x` prefix when the original string is exactly 96 characters long. -/
def eth2_address_lower_0x_prefixed (address : List Char) :
    Except PyErr (List Char) :=
  let address_lower := address.map Char.toLower
  if eth2Regex address_lower then
    if address.length = ETH2_ADDRESS_LEN then
      .ok (['0', 'x'] ++ address_lower)
    else .ok address_lower
  else .error .valueError

/-- `service/utils.py::load_pubkeys_from_file` over the stripped lines of
the key file: every line is validated; the first invalid line aborts the
whole read (the `set(...)` consuming the generator propagates the
`ValueError`), so no partial key set is produced. -/
def load_pubkeys_from_file (lines : List (List Char)) :
    Except PyErr (List (List Char)) :=
  lines.mapM eth2_address_lower_0x_prefixed

/-- Observable outcome of the monitoring loop skeleton: the slots whose
iteration ran to completion, the adopted key set, and the error that ended
the loop (if any). -/
structure HandleResult where
  processed_slots : List Nat
  own_pubkeys : List (List Char)
  err : Option PyErr
  deriving DecidableEq

/-- `service/app.py::handle`, reduced to the control flow C9 concerns: the
slot loop (line 185) with the per-epoch key refresh (lines 197, 202-206).
`epoch = slot / SLOTS_PER_EPOCH`; the refresh runs when `previous_epoch`
is unset or differs from `epoch`; a `ValueError` from `get_own_pubkeys` is
re-raised as `typer.BadParameter` (line 205), which nothing in `handle` or
`run` catches (`run` catches only `KeyboardInterrupt`), so the loop
terminates there and then.  The other subsystems of an iteration never
assign `own_pubkeys` and are elided; the source skips pre-genesis
(negative) slots, which this model does not produce. -/
def handleSlotsAux (slotsPerEpoch : Nat) (lines : List (List Char)) :
    List Nat → List (List Char) → Option Nat → List Nat → HandleResult
  | [], own_pubkeys, _, processed => ⟨processed, own_pubkeys, none⟩
  | slot :: rest, own_pubkeys, previous_epoch, processed =>
    let epoch := slot / slotsPerEpoch
    if previous_epoch = none ∨ previous_epoch ≠ some epoch then
      match load_pubkeys_from_file lines with
      | .error _ => ⟨processed, own_pubkeys, some .badParameter⟩
      | .ok new_pubkeys =>
        handleSlotsAux slotsPerEpoch lines rest new_pubkeys (some epoch)
          (processed ++ [slot])
    else
      handleSlotsAux slotsPerEpoch lines rest own_pubkeys (some epoch)
        (processed ++ [slot])

def handleSlots (slotsPerEpoch : Nat) (lines : List (List Char))
    (slots : List Nat) : HandleResult :=
  handleSlotsAux slotsPerEpoch lines slots [] none []

theorem load_pubkeys_error {lines : List (List Char)}
    (h : ∃ l ∈ lines,
      eth2_address_lower_0x_prefixed l = .error .valueError) :
    ∃ e, load_pubkeys_from_file lines = Except.error e := by
  unfold load_pubkeys_from_file
  induction lines with
  | nil => simp at h
  | cons a t ih =>
    rcases h with ⟨l, hl, herr⟩
    rw [List.mapM_cons]
    rcases List.mem_cons.mp hl with rfl | hlt
    · exact ⟨PyErr.valueError, by rw [herr]; rfl⟩
    · cases ha : eth2_address_lower_0x_prefixed a with
      | error e => exact ⟨e, rfl⟩
      | ok v =>
        obtain ⟨e, he⟩ := ih ⟨l, hlt, herr⟩
        rw [show (List.mapM eth2_address_lower_0x_prefixed t :
          Except PyErr (List (List Char))) = Except.error e from he]
        exact ⟨e, rfl⟩

/-- C9 (amended): when the key file contains an invalid validator key, the
per-epoch refresh is rejected as a whole — no partial key set is adopted,
`own_pubkeys` keeps its previous (initially empty) value — but the raised
`typer.BadParameter` terminates the monitoring loop at the first epoch
boundary instead of letting the process proceed to later slots: no slot
iteration completes and the run ends with the error. -/
theorem handle_invalid_key_spec (slotsPerEpoch : Nat)
    (lines : List (List Char)) (slots : List Nat)
    (hbad : ∃ l ∈ lines,
      eth2_address_lower_0x_prefixed l = .error .valueError)
    (hne : slots ≠ []) :
    (handleSlots slotsPerEpoch lines slots).err = some .badParameter ∧
    (handleSlots slotsPerEpoch lines slots).own_pubkeys = [] ∧
    (handleSlots slotsPerEpoch lines slots).processed_slots = [] := by
  cases slots with
  | nil => exact absurd rfl hne
  | cons s rest =>
    obtain ⟨e, he⟩ := load_pubkeys_error hbad
    have hres : handleSlots slotsPerEpoch lines (s :: rest) =
        ⟨[], [], some PyErr.badParameter⟩ := by
      unfold handleSlots handleSlotsAux
      rw [if_pos (Or.inl rfl), he]
    rw [hres]
    exact ⟨rfl, rfl, rfl⟩

/-- C9 witness: a key file whose single line is the invalid key `zz`, two
slots to monitor — the run aborts before completing any slot, with no keys
adopted. -/
theorem handle_invalid_key_spec_witness :
    (handleSlots 32 [['z', 'z']] [0, 1]).err = some .badParameter ∧
    (handleSlots 32 [['z', 'z']] [0, 1]).own_pubkeys = [] ∧
    (handleSlots 32 [['z', 'z']] [0, 1]).processed_slots = [] :=
  handle_invalid_key_spec 32 [['z', 'z']] [0, 1]
    ⟨['z', 'z'], by decide, rfl⟩ (by decide)

/-- C9 counterexample: the claim says the monitoring process "keeps running
and proceeds to later slots" after an invalid key; in fact the run with key
file line `zz` over slots `[0, 1]` completes no slot at all — it is
terminated by `typer.BadParameter` at the first refresh. -/
theorem handle_invalid_key_counterexample :
    (handleSlots 32 [['z', 'z']] [0, 1]).processed_slots ≠ [0, 1] ∧
    (handleSlots 32 [['z', 'z']] [0, 1]).err ≠ none := by
  decide

-- ### C1: `service/attestations.py::process_attestations` /
-- `aggregate_attestations`

/-- `data_types.py::Block...Attestation`, reduced to the fields
`aggregate_attestations` reads: `data.slot`, `data.index` (the committee
index) and the hex string `aggregation_bits` (embedded as its character
list). -/
structure Attestation where
  slot : Nat
  index : Nat
  aggregation_bits : List Char
  deriving DecidableEq

/-- The decoding pipeline applied to each attestation in the
`aggregate_attestations` loop (lines 264-279): hex to bits, byte-wise
endianness switch, then the trailing-sentinel trim. -/
def decode_aggregation_bits (a : Attestation) : Except PyErr (List Bool) :=
  (hex_to_binary a.aggregation_bits).bind fun bits =>
    delete_zero_bits (switch_endianness bits)

/-- The decoded vector of an attestation whose decoding succeeds (default
`[]` otherwise; only used where success is known). -/
def decodedBits (a : Attestation) : List Bool :=
  (decode_aggregation_bits a).toOption.getD []

/-- `defaultdict(list)` append (line 281): extend the list at `k`, adding
the key at the end on first sight (Python dicts preserve insertion
order). -/
def groupAppend (g : List (Nat × List (List Bool))) (k : Nat) (v : List Bool) :
    List (Nat × List (List Bool)) :=
  match g with
  | [] => [(k, [v])]
  | (k1, vs) :: rest =>
    if k1 = k then (k1, vs ++ [v]) :: rest
    else (k1, vs) :: groupAppend rest k v

/-- `service/attestations.py::aggregate_attestations`: decode every
attestation of the requested slot, group the vectors by committee index,
then OR-aggregate each committee with `aggregate_bits`.  Exceptions
(`ValueError` from the hex parse, `StopIteration` from the trim,
`ValueError` from mismatched lengths) propagate. -/
def aggregate_attestations (attestations : List Attestation) (slot : Nat) :
    Except PyErr (List (Nat × List Bool)) :=
  match (attestations.filter (fun a => a.slot == slot)).foldlM
      (fun g a => (decode_aggregation_bits a).map (fun bits =>
        groupAppend g a.index bits))
      ([] : List (Nat × List (List Bool))) with
  | .error e => .error e
  | .ok committee_index2aggregation_bits =>
    committee_index2aggregation_bits.mapM (fun p =>
      (aggregate_bits p.2).map (fun v => (p.1, v)))

/-- `service/attestations.py::process_attestations` (lines 121-241),
returning the alerted set together with the participation rate
(`none` when the source leaves the gauge untouched).  The per-slot duty
table is the dict `slot -> committee index -> duty list` the node returned
for the epoch of the previous slot; `slot < 1` short-circuits to the empty
set; a missing previous slot or committee raises `KeyError`; the rate is
CPython float division of the two set sizes (line 216-221). -/
def process_attestations (duties : List (Nat × List (Nat × List Nat)))
    (attestations : List Attestation) (slot : Nat) (own : Finset Nat) :
    Except PyErr (Finset Nat × Option ℚ) :=
  if slot < 1 then .ok (∅, none) else
  match pyGetItem duties (slot - 1) with
  | .error e => .error e
  | .ok duty_committees =>
    match aggregate_attestations attestations (slot - 1) with
    | .error e => .error e
    | .ok committee_success =>
      match committee_success.mapM (fun p =>
          (pyGetItem duty_committees p.1).map (fun row => apply_mask row p.2)) with
      | .error e => .error e
      | .ok masked =>
        .ok ((((duty_committees.map Prod.snd).flatten).toFinset ∩ own) \
            (masked.foldl (fun s t => s ∪ t) ∅ ∩
              (((duty_committees.map Prod.snd).flatten).toFinset ∩ own)),
          if (((duty_committees.map Prod.snd).flatten).toFinset ∩ own).card ≠ 0
          then
            some (floatDivPos
              (masked.foldl (fun s t => s ∪ t) ∅ ∩
                (((duty_committees.map Prod.snd).flatten).toFinset ∩ own)).card
              (((duty_committees.map Prod.snd).flatten).toFinset ∩ own).card)
          else none)

/-- Spec side: the decoded aggregation-bit vectors of committee `c` among
the attestations whose `data.slot` equals the previous slot. -/
def specCommitteeBits (attestations : List Attestation) (prev c : Nat) :
    List (List Bool) :=
  ((attestations.filter (fun a => a.slot == prev)).filter
    (fun a => a.index == c)).map decodedBits

/-- Spec side: the OR-aggregate of a family of (equal-length) vectors. -/
def specOrAggregate (l : List (List Bool)) : List Bool :=
  orVec (l.headD []).length l

/-- Spec side: `assigned_own` — the union of the duty lists of every
committee at the previous slot, intersected with the own active validator
indices. -/
def specAssignedOwn (duty_committees : List (Nat × List Nat))
    (own : Finset Nat) : Finset Nat :=
  ((duty_committees.map Prod.snd).flatten).toFinset ∩ own

/-- Spec side: `included` — the union, over committees with at least one
attestation for the previous slot, of `apply_mask` applied to that
committee's duty list with the OR-aggregate of its decoded
aggregation-bit vectors. -/
def specIncludedAll (duty_committees : List (Nat × List Nat))
    (attestations : List Attestation) (prev : Nat) : Finset Nat :=
  (((attestations.filter (fun a => a.slot == prev)).map
      Attestation.index).dedup).foldl
    (fun s c => s ∪ apply_mask ((pyLookup duty_committees c).getD [])
      (specOrAggregate (specCommitteeBits attestations prev c))) ∅

-- ### helper lemmas for the grouping fold

theorem pyLookup_cons {β : Type} (k : Nat) (v : β) (rest : List (Nat × β))
    (c : Nat) :
    pyLookup ((k, v) :: rest) c = if k = c then some v else pyLookup rest c := by
  unfold pyLookup
  by_cases h : k = c
  · rw [if_pos h, List.find?_cons_of_pos _ (by simp [h])]
    rfl
  · rw [if_neg h, List.find?_cons_of_neg _ (by simp [h])]

theorem pyLookup_groupAppend (g : List (Nat × List (List Bool))) (k : Nat)
    (v : List Bool) (c : Nat) :
    pyLookup (groupAppend g k v) c =
      if c = k then some (((pyLookup g k).getD []) ++ [v])
      else pyLookup g c := by
  induction g with
  | nil =>
    rcases eq_or_ne c k with rfl | h
    · simp [groupAppend, pyLookup_cons, pyLookup]
    · simp [groupAppend, pyLookup_cons, Ne.symm h, h, pyLookup]
  | cons p rest ih =>
    rcases p with ⟨k1, vs⟩
    have hg : groupAppend ((k1, vs) :: rest) k v =
        if k1 = k then (k1, vs ++ [v]) :: rest
        else (k1, vs) :: groupAppend rest k v := rfl
    by_cases h1 : k1 = k
    · subst h1
      rw [hg, if_pos rfl]
      rcases eq_or_ne c k1 with rfl | hc
      · simp [pyLookup_cons]
      · simp [pyLookup_cons, Ne.symm hc, hc]
    · rw [hg, if_neg h1]
      rcases eq_or_ne c k with rfl | hck
      · simp [pyLookup_cons, Ne.symm h1, ih, h1]
      · rcases eq_or_ne k1 c with rfl | hkc
        · simp [pyLookup_cons, Ne.symm hck, h1]
        · simp [pyLookup_cons, hkc, ih, hck]

/-- The grouping loop of `aggregate_attestations`, with the decoded vector
of each attestation. -/
def groupFold (l : List Attestation) (g0 : List (Nat × List (List Bool))) :
    List (Nat × List (List Bool)) :=
  l.foldl (fun g a => groupAppend g a.index (decodedBits a)) g0

theorem pyLookup_groupFold :
    ∀ (l : List Attestation) (g0 : List (Nat × List (List Bool))) (c : Nat),
      (pyLookup (groupFold l g0) c).getD [] =
        (pyLookup g0 c).getD [] ++
          (l.filter (fun a => a.index == c)).map decodedBits ∧
      (pyLookup (groupFold l g0) c = none ↔
        pyLookup g0 c = none ∧ l.filter (fun a => a.index == c) = []) := by
  intro l
  induction l with
  | nil => intro g0 c; simp [groupFold]
  | cons a t ih =>
    intro g0 c
    have hstep : groupFold (a :: t) g0 =
        groupFold t (groupAppend g0 a.index (decodedBits a)) := rfl
    rw [hstep]
    obtain ⟨ih1, ih2⟩ := ih (groupAppend g0 a.index (decodedBits a)) c
    by_cases hc : a.index = c
    · constructor
      · rw [ih1, pyLookup_groupAppend, if_pos hc.symm]
        subst hc
        simp
      · rw [ih2, pyLookup_groupAppend, if_pos hc.symm]
        simp [hc]
    · constructor
      · rw [ih1, pyLookup_groupAppend, if_neg (fun hh => hc hh.symm)]
        simp [hc]
      · rw [ih2, pyLookup_groupAppend, if_neg (fun hh => hc hh.symm)]
        simp [hc]

theorem groupAppend_keys (g : List (Nat × List (List Bool))) (k : Nat)
    (v : List Bool) :
    (groupAppend g k v).map Prod.fst =
      if k ∈ g.map Prod.fst then g.map Prod.fst
      else g.map Prod.fst ++ [k] := by
  induction g with
  | nil => simp [groupAppend]
  | cons p rest ih =>
    rcases p with ⟨k1, vs⟩
    by_cases h : k1 = k
    · subst h
      simp [groupAppend]
    · have hg : groupAppend ((k1, vs) :: rest) k v =
          (k1, vs) :: groupAppend rest k v := by
        show (if k1 = k then _ else _) = _
        rw [if_neg h]
      rw [hg, List.map_cons, ih]
      by_cases hk : k ∈ rest.map Prod.fst
      · rw [if_pos hk, if_pos (by simp [hk])]
        rfl
      · rw [if_neg hk, if_neg (by simp [hk, Ne.symm h])]
        rfl

theorem groupAppend_keys_nodup {g : List (Nat × List (List Bool))}
    (h : (g.map Prod.fst).Nodup) (k : Nat) (v : List Bool) :
    ((groupAppend g k v).map Prod.fst).Nodup := by
  rw [groupAppend_keys]
  by_cases hk : k ∈ g.map Prod.fst
  · rwa [if_pos hk]
  · rw [if_neg hk]
    simp [List.nodup_append, h, hk]

theorem groupFold_keys_nodup :
    ∀ (l : List Attestation) (g0 : List (Nat × List (List Bool))),
      (g0.map Prod.fst).Nodup → ((groupFold l g0).map Prod.fst).Nodup := by
  intro l
  induction l with
  | nil => intro g0 h; exact h
  | cons a t ih =>
    intro g0 h
    exact ih _ (groupAppend_keys_nodup h a.index (decodedBits a))

theorem pyLookup_of_mem {β : Type} :
    ∀ {g : List (Nat × β)}, (g.map Prod.fst).Nodup →
      ∀ {q : Nat × β}, q ∈ g → pyLookup g q.1 = some q.2 := by
  intro g
  induction g with
  | nil => intro _ q hq; simp at hq
  | cons p rest ih =>
    rcases p with ⟨k, v⟩
    intro hnd q hq
    rw [List.map_cons, List.nodup_cons] at hnd
    rcases List.mem_cons.mp hq with rfl | hq1
    · rw [pyLookup_cons, if_pos rfl]
    · have hne : k ≠ q.1 := by
        intro hkq
        exact hnd.1 (hkq ▸ List.mem_map.mpr ⟨q, hq1, rfl⟩)
      rw [pyLookup_cons, if_neg hne]
      exact ih hnd.2 hq1

theorem pyLookup_some_mem {β : Type} {g : List (Nat × β)} {c : Nat} {v : β}
    (h : pyLookup g c = some v) : (c, v) ∈ g := by
  unfold pyLookup at h
  cases hf : g.find? (fun p => p.1 == c) with
  | none => rw [hf] at h; cases h
  | some q =>
    rw [hf] at h
    have hq : q ∈ g := List.mem_of_find?_eq_some hf
    have h1 : q.1 = c := by simpa using List.find?_some hf
    have h2 : q.2 = v := by simpa using h
    have hqe : q = (c, v) := by
      rw [← h1, ← h2]
    rwa [← hqe]

theorem pyGetItem_ok_iff {β : Type} (g : List (Nat × β)) (c : Nat) (v : β) :
    pyGetItem g c = .ok v ↔ pyLookup g c = some v := by
  unfold pyGetItem
  cases h : pyLookup g c <;> simp

theorem mapM_mem_iff {α β : Type} {f : α → Except PyErr β} :
    ∀ {l : List α} {out : List β}, l.mapM f = .ok out →
      ∀ b, (b ∈ out ↔ ∃ a ∈ l, f a = .ok b) := by
  intro l
  induction l with
  | nil =>
    intro out h b
    have hout : out = [] := by
      have h2 : (Except.ok [] : Except PyErr (List β)) = .ok out := h
      exact (Except.ok.inj h2).symm
    subst hout
    simp
  | cons a t ih =>
    intro out h b
    rw [List.mapM_cons] at h
    cases hfa : f a with
    | error e => rw [hfa] at h; exact Except.noConfusion h
    | ok b0 =>
      rw [hfa] at h
      cases hmt : t.mapM f with
      | error e => rw [hmt] at h; exact Except.noConfusion h
      | ok bs =>
        rw [hmt] at h
        have h2 : (Except.ok (b0 :: bs) : Except PyErr (List β)) = .ok out := h
        have hout : out = b0 :: bs := (Except.ok.inj h2).symm
        subst hout
        constructor
        · intro hb
          rcases List.mem_cons.mp hb with rfl | hb1
          · exact ⟨a, by simp, hfa⟩
          · obtain ⟨a2, ha2, hfa2⟩ := (ih hmt b).mp hb1
            exact ⟨a2, by simp [ha2], hfa2⟩
        · rintro ⟨a2, ha2, hfa2⟩
          rcases List.mem_cons.mp ha2 with rfl | ha2t
          · rw [hfa] at hfa2
            rw [Except.ok.inj hfa2]
            simp
          · exact List.mem_cons_of_mem _ ((ih hmt b).mpr ⟨a2, ha2t, hfa2⟩)

theorem mapM_ok_forall {α β : Type} {f : α → Except PyErr β} :
    ∀ {l : List α} {out : List β}, l.mapM f = .ok out →
      ∀ a ∈ l, ∃ b ∈ out, f a = .ok b := by
  intro l
  induction l with
  | nil => intro out _ a ha; simp at ha
  | cons a0 t ih =>
    intro out h a ha
    rw [List.mapM_cons] at h
    cases hfa : f a0 with
    | error e => rw [hfa] at h; exact Except.noConfusion h
    | ok b0 =>
      rw [hfa] at h
      cases hmt : t.mapM f with
      | error e => rw [hmt] at h; exact Except.noConfusion h
      | ok bs =>
        rw [hmt] at h
        have h2 : (Except.ok (b0 :: bs) : Except PyErr (List β)) = .ok out := h
        have hout : out = b0 :: bs := (Except.ok.inj h2).symm
        subst hout
        rcases List.mem_cons.mp ha with rfl | hat
        · exact ⟨b0, by simp, hfa⟩
        · obtain ⟨b, hb, hfb⟩ := ih hmt a hat
          exact ⟨b, List.mem_cons_of_mem _ hb, hfb⟩

theorem foldlM_group_ok :
    ∀ {l : List Attestation} {g0 groups : List (Nat × List (List Bool))},
      l.foldlM (fun g a => (decode_aggregation_bits a).map (fun bits =>
        groupAppend g a.index bits)) g0 = .ok groups →
      groups = groupFold l g0 := by
  intro l
  induction l with
  | nil =>
    intro g0 groups h
    have h2 : (Except.ok g0 : Except PyErr _) = .ok groups := h
    exact (Except.ok.inj h2).symm
  | cons a t ih =>
    intro g0 groups h
    rw [List.foldlM_cons] at h
    cases hda : decode_aggregation_bits a with
    | error e => rw [hda] at h; exact Except.noConfusion h
    | ok v =>
      rw [hda] at h
      have hdb : decodedBits a = v := by
        unfold decodedBits
        rw [hda]
        rfl
      have hstep : groupFold (a :: t) g0 =
          groupFold t (groupAppend g0 a.index v) := by
        show groupFold t (groupAppend g0 a.index (decodedBits a)) = _
        rw [hdb]
      rw [hstep]
      exact ih h

theorem mem_foldl_union (l : List (Finset Nat)) (s : Finset Nat) (x : Nat) :
    x ∈ l.foldl (fun s t => s ∪ t) s ↔ x ∈ s ∨ ∃ t ∈ l, x ∈ t := by
  induction l generalizing s with
  | nil => simp
  | cons t ts ih =>
    rw [List.foldl_cons, ih]
    simp only [Finset.mem_union, List.mem_cons]
    constructor
    · rintro ((hx | hx) | ⟨u, hu, hx⟩)
      · exact Or.inl hx
      · exact Or.inr ⟨t, Or.inl rfl, hx⟩
      · exact Or.inr ⟨u, Or.inr hu, hx⟩
    · rintro (hx | ⟨u, (rfl | hu), hx⟩)
      · exact Or.inl (Or.inl hx)
      · exact Or.inl (Or.inr hx)
      · exact Or.inr ⟨u, hu, hx⟩

theorem aggregate_bits_ok_specOr {l : List (List Bool)} {v : List Bool}
    (h : aggregate_bits l = .ok v) : v = specOrAggregate l := by
  obtain ⟨n, hne, hlen, rfl⟩ := aggregate_bits_ok_inv h
  unfold specOrAggregate
  cases l with
  | nil => exact absurd rfl hne
  | cons w ws =>
    have hw : w.length = n := hlen w (by simp)
    show orVec n (w :: ws) = orVec w.length (w :: ws)
    rw [hw]

theorem filter_index_ne_nil {l : List Attestation} {c : Nat} :
    l.filter (fun a => a.index == c) ≠ [] ↔ c ∈ l.map Attestation.index := by
  constructor
  · intro h
    cases hf : l.filter (fun a => a.index == c) with
    | nil => exact absurd hf h
    | cons a t =>
      have ha : a ∈ l.filter (fun a => a.index == c) := by rw [hf]; simp
      rw [List.mem_filter] at ha
      exact List.mem_map.mpr ⟨a, ha.1, by simpa using ha.2⟩
  · intro h hf
    obtain ⟨a, ha, hac⟩ := List.mem_map.mp h
    have hmem : a ∈ l.filter (fun a => a.index == c) :=
      List.mem_filter.mpr ⟨ha, by simp [hac]⟩
    rw [hf] at hmem
    simp at hmem

theorem mem_foldl_union_map {α : Type} (F : α → Finset Nat) (cs : List α)
    (s : Finset Nat) (x : Nat) :
    x ∈ cs.foldl (fun s c => s ∪ F c) s ↔ x ∈ s ∨ ∃ c ∈ cs, x ∈ F c := by
  induction cs generalizing s with
  | nil => simp
  | cons c cs ih =>
    rw [List.foldl_cons, ih]
    simp only [Finset.mem_union, List.mem_cons]
    constructor
    · rintro ((hx | hx) | ⟨u, hu, hx⟩)
      · exact Or.inl hx
      · exact Or.inr ⟨c, Or.inl rfl, hx⟩
      · exact Or.inr ⟨u, Or.inr hu, hx⟩
    · rintro (hx | ⟨u, (rfl | hu), hx⟩)
      · exact Or.inl (Or.inl hx)
      · exact Or.inl (Or.inr hx)
      · exact Or.inr ⟨u, hu, hx⟩

/-- The committee loop of `process_attestations`: the union of the masked
sets produced from the grouped-and-aggregated attestations equals the
union, over the distinct committee indices, of `apply_mask` applied to the
committee's duty row with the OR-aggregate of the committee's decoded
vectors. -/
theorem masked_union_eq (dc : List (Nat × List Nat)) (l : List Attestation)
    {groups : List (Nat × List (List Bool))}
    {agg : List (Nat × List Bool)} {masked : List (Finset Nat)}
    (hg : l.foldlM (fun g a => (decode_aggregation_bits a).map (fun bits =>
        groupAppend g a.index bits)) [] = .ok groups)
    (ha : groups.mapM (fun p => (aggregate_bits p.2).map (fun v => (p.1, v)))
        = .ok agg)
    (hm : agg.mapM (fun p => (pyGetItem dc p.1).map
        (fun row => apply_mask row p.2)) = .ok masked) :
    masked.foldl (fun s t => s ∪ t) ∅ =
      ((l.map Attestation.index).dedup).foldl
        (fun s c => s ∪ apply_mask ((pyLookup dc c).getD [])
          (specOrAggregate
            ((l.filter (fun a => a.index == c)).map decodedBits))) ∅ := by
  have hgroups := foldlM_group_ok hg
  have hnodup : ((groupFold l []).map Prod.fst).Nodup :=
    groupFold_keys_nodup l [] (by simp)
  ext x
  rw [mem_foldl_union, mem_foldl_union_map]
  simp only [Finset.not_mem_empty, false_or]
  constructor
  · rintro ⟨t, ht, hx⟩
    obtain ⟨p, hp, hstep⟩ := (mapM_mem_iff hm t).mp ht
    cases hrow : pyGetItem dc p.1 with
    | error e => rw [hrow] at hstep; exact Except.noConfusion hstep
    | ok row =>
      rw [hrow] at hstep
      have ht2 : t = apply_mask row p.2 := (Except.ok.inj hstep).symm
      have hrowl : pyLookup dc p.1 = some row := (pyGetItem_ok_iff _ _ _).mp hrow
      obtain ⟨q, hq, hqstep⟩ := (mapM_mem_iff ha p).mp hp
      cases hab : aggregate_bits q.2 with
      | error e => rw [hab] at hqstep; exact Except.noConfusion hqstep
      | ok v =>
        rw [hab] at hqstep
        have hp2 : p = (q.1, v) := (Except.ok.inj hqstep).symm
        have hv : v = specOrAggregate q.2 := aggregate_bits_ok_specOr hab
        rw [hgroups] at hq
        have hlook : pyLookup (groupFold l []) q.1 = some q.2 :=
          pyLookup_of_mem hnodup hq
        obtain ⟨hgd, hnone⟩ := pyLookup_groupFold l [] q.1
        have hq2 : q.2 = (l.filter (fun a => a.index == q.1)).map decodedBits := by
          rw [hlook] at hgd
          simpa using hgd
        have hne : l.filter (fun a => a.index == q.1) ≠ [] := by
          intro hnil
          have h0 : pyLookup (groupFold l []) q.1 = none :=
            hnone.mpr ⟨rfl, hnil⟩
          rw [hlook] at h0
          cases h0
        refine ⟨q.1, List.mem_dedup.mpr (filter_index_ne_nil.mp hne), ?_⟩
        rw [ht2, hp2] at hx
        rw [hp2] at hrowl
        rw [hrowl]
        rw [hv, hq2] at hx
        exact hx
  · rintro ⟨c, hc, hx⟩
    have hcmem : c ∈ l.map Attestation.index := List.mem_dedup.mp hc
    have hne : l.filter (fun a => a.index == c) ≠ [] :=
      filter_index_ne_nil.mpr hcmem
    obtain ⟨hgd, hnone⟩ := pyLookup_groupFold l [] c
    have hlook : pyLookup (groupFold l []) c =
        some ((l.filter (fun a => a.index == c)).map decodedBits) := by
      cases hl : pyLookup (groupFold l []) c with
      | none => exact absurd (hnone.mp hl).2 hne
      | some vs0 =>
        rw [hl] at hgd
        simp only [Option.getD_some] at hgd
        rw [hgd]
        rfl
    have hqmem : (c, (l.filter (fun a => a.index == c)).map decodedBits) ∈
        groupFold l [] := pyLookup_some_mem hlook
    rw [← hgroups] at hqmem
    obtain ⟨p, hp, hpstep⟩ := mapM_ok_forall ha _ hqmem
    cases hab : aggregate_bits
        ((l.filter (fun a => a.index == c)).map decodedBits) with
    | error e => rw [hab] at hpstep; exact Except.noConfusion hpstep
    | ok v =>
      rw [hab] at hpstep
      have hp2 : p = (c, v) := (Except.ok.inj hpstep).symm
      have hv : v = specOrAggregate
          ((l.filter (fun a => a.index == c)).map decodedBits) :=
        aggregate_bits_ok_specOr hab
      obtain ⟨t, ht, htstep⟩ := mapM_ok_forall hm p hp
      cases hrow : pyGetItem dc p.1 with
      | error e => rw [hrow] at htstep; exact Except.noConfusion htstep
      | ok row =>
        rw [hrow] at htstep
        have ht2 : t = apply_mask row p.2 := (Except.ok.inj htstep).symm
        refine ⟨t, ht, ?_⟩
        rw [hp2] at hrow
        have hrowl : pyLookup dc c = some row := (pyGetItem_ok_iff _ _ _).mp hrow
        rw [hrowl] at hx
        rw [ht2, hp2]
        simp only [Option.getD_some] at hx
        rw [← hv] at hx
        exact hx

/-- C1 (amended): for every slot `s >= 1`, a successful run of
`process_attestations` returns exactly `assigned_own` minus
`included_own = assigned_own ∩ included`, where `assigned_own` is the
union of the duty lists of every committee at slot `s - 1` intersected
with the own active indices and `included` is the union, over committees,
of `apply_mask` applied to the committee's duty list with the OR-aggregate
of its decoded aggregation-bit vectors for attestations of slot `s - 1`;
the participation rate is the binary64 quotient of `|included_own|` by
`|assigned_own|` (CPython float division of the two sizes, not the exact
rational) and is left undefined — the gauge untouched — exactly when
`assigned_own` is empty. -/
theorem process_attestations_spec
    (duties : List (Nat × List (Nat × List Nat))) (atts : List Attestation)
    (slot : Nat) (own : Finset Nat) (r : Finset Nat) (rate : Option ℚ)
    (hs : 1 ≤ slot)
    (hok : process_attestations duties atts slot own = .ok (r, rate)) :
    r = specAssignedOwn ((pyLookup duties (slot - 1)).getD []) own \
        (specAssignedOwn ((pyLookup duties (slot - 1)).getD []) own ∩
          specIncludedAll ((pyLookup duties (slot - 1)).getD []) atts
            (slot - 1)) ∧
    rate = (if (specAssignedOwn ((pyLookup duties (slot - 1)).getD [])
        own).card ≠ 0
      then some (floatDivPos
        (specAssignedOwn ((pyLookup duties (slot - 1)).getD []) own ∩
          specIncludedAll ((pyLookup duties (slot - 1)).getD []) atts
            (slot - 1)).card
        (specAssignedOwn ((pyLookup duties (slot - 1)).getD []) own).card)
      else none) := by
  unfold process_attestations at hok
  rw [if_neg (by omega)] at hok
  split at hok
  · exact Except.noConfusion hok
  · next dc hd =>
    split at hok
    · exact Except.noConfusion hok
    · next cs hagg =>
      split at hok
      · exact Except.noConfusion hok
      · next masked hm =>
        unfold aggregate_attestations at hagg
        split at hagg
        · exact Except.noConfusion hagg
        · next groups hfold =>
          have hU := masked_union_eq dc
            (atts.filter (fun a => a.slot == (slot - 1))) hfold hagg hm
          have hU2 : masked.foldl (fun s t => s ∪ t) ∅ =
              specIncludedAll dc atts (slot - 1) := by
            rw [hU]
            rfl
          have hdl : (pyLookup duties (slot - 1)).getD [] = dc := by
            rw [(pyGetItem_ok_iff _ _ _).mp hd]
            rfl
          rw [Except.ok.injEq, Prod.mk.injEq] at hok
          obtain ⟨hr, hrate⟩ := hok
          have hA : specAssignedOwn dc own =
              ((dc.map Prod.snd).flatten).toFinset ∩ own := rfl
          constructor
          · rw [← hr, hdl, hA, hU2,
              Finset.inter_comm (specIncludedAll dc atts (slot - 1))]
          · rw [← hrate, hdl, hA, hU2,
              Finset.inter_comm (specIncludedAll dc atts (slot - 1))]

/-- C1 witness: one committee `0` at slot `0` with duty list `[1, 2, 3]`,
all three under monitoring, and a single attestation for slot `0` with
aggregation bits `0x0b` (which decode to `[true, true, false]`): the call
at slot `1` alerts exactly validator `3` and reports the binary64 quotient
of `2` by `3` as participation rate. -/
theorem process_attestations_spec_witness :
    1 ≤ 1 ∧
    (({3} : Finset Nat) =
        specAssignedOwn ((pyLookup [(0, [(0, [1, 2, 3])])] 0).getD [])
            {1, 2, 3} \
          (specAssignedOwn ((pyLookup [(0, [(0, [1, 2, 3])])] 0).getD [])
              {1, 2, 3} ∩
            specIncludedAll ((pyLookup [(0, [(0, [1, 2, 3])])] 0).getD [])
              [⟨0, 0, ['0', 'x', '0', 'b']⟩] 0) ∧
      (some (floatDivPos 2 3) : Option ℚ) =
        (if (specAssignedOwn ((pyLookup [(0, [(0, [1, 2, 3])])] 0).getD [])
            {1, 2, 3}).card ≠ 0
        then some (floatDivPos
          (specAssignedOwn ((pyLookup [(0, [(0, [1, 2, 3])])] 0).getD [])
              {1, 2, 3} ∩
            specIncludedAll ((pyLookup [(0, [(0, [1, 2, 3])])] 0).getD [])
              [⟨0, 0, ['0', 'x', '0', 'b']⟩] 0).card
          (specAssignedOwn ((pyLookup [(0, [(0, [1, 2, 3])])] 0).getD [])
              {1, 2, 3}).card)
        else none)) :=
  ⟨Nat.le_refl 1,
    process_attestations_spec [(0, [(0, [1, 2, 3])])]
      [⟨0, 0, ['0', 'x', '0', 'b']⟩] 1 {1, 2, 3} {3}
      (some (floatDivPos 2 3)) (Nat.le_refl 1) (by with_unfolding_all rfl)⟩

/-- C1 counterexample: the claim asserts the participation rate equals the
exact rational `|included_own| / |assigned_own|`; on the run below the
code stores the binary64 quotient of `2` by `3`, and that float is not
`2 / 3` (no binary64 value is). -/
theorem process_attestations_rate_counterexample :
    process_attestations [(0, [(0, [1, 2, 3])])]
      [⟨0, 0, ['0', 'x', '0', 'b']⟩] 1 {1, 2, 3} =
      .ok ({3}, some (floatDivPos 2 3)) ∧
    floatDivPos 2 3 ≠ 2 / 3 := by
  constructor
  · with_unfolding_all rfl
  · have he : ratLog2 2 3 - 52 = (-53 : ℤ) := by decide
    have h2 : ((2 : ℚ)) ^ (-53 : ℤ) = ((9007199254740992 : ℚ))⁻¹ := by
      rw [zpow_neg]
      norm_num
    have hxval : ((2 : ℚ) / 3) / (2 : ℚ) ^ (-53 : ℤ) =
        18014398509481984 / 3 := by
      rw [h2]
      norm_num
    have hfloor : ⌊((2 : ℚ) / 3) / (2 : ℚ) ^ (-53 : ℤ)⌋ =
        6004799503160661 := by
      rw [hxval]
      norm_num [Int.floor_eq_iff]
    have hlt : ((2 : ℚ) / 3) / (2 : ℚ) ^ (-53 : ℤ) -
        ⌊((2 : ℚ) / 3) / (2 : ℚ) ^ (-53 : ℤ)⌋ < 1 / 2 := by
      rw [hfloor, hxval]
      norm_num
    have hrne : rne (((2 : ℚ) / 3) / (2 : ℚ) ^ (-53 : ℤ)) =
        6004799503160661 := by
      rw [rne_eq_floor hlt, hfloor]
    have hfval : floatDivPos 2 3 =
        6004799503160661 * (2 : ℚ) ^ (-53 : ℤ) := by
      unfold floatDivPos
      show ((rne ((((2 : ℕ) : ℚ)) / (((3 : ℕ) : ℚ)) /
        2 ^ (ratLog2 2 3 - 52)) : ℚ)) * 2 ^ (ratLog2 2 3 - 52) = _
      rw [he]
      simp only [Nat.cast_ofNat]
      rw [hrne]
      norm_num
    rw [hfval, h2]
    norm_num
